import Mathlib

/-!
Verification of the ParcelPredator BDI delivery-agent core.

This file gives a shallow embedding, in Lean 4, of the algorithmic heart of
the ParcelPredator repository (a grid-world delivery agent):

* the belief store of `src/bdi/belief.js` (parcel decay and expiry, the
  cooldown registry, and the claim registry with its TTL pruning and the
  `shouldYieldClaim` tie-break);
* the option generator of `src/bdi/options.js` (`findNearestDelivery`,
  `evaluateRoute`, `buildGreedyRoute`);
* the plan executors `GoPickUp.execute` / `GoDeliver.execute` of
  `src/bdi/plans/goPickUp.js` and `src/bdi/plans/goDeliver.js`;
* the grid and its breadth-first pathfinder `Grid.bfsPath`
  (`src/utils/grid.js`).

JavaScript numbers are embedded as `Int` (timestamps, coordinates) and `ℚ`
(rewards, scores); the float `-Infinity` sentinel used by the option scorer
becomes `⊥` in `WithBot ℚ`.  A JS `Map` is embedded as an insertion-ordered
association list (`set` overwrites in place, `delete` removes, iteration
follows insertion order, exactly as `Map` iteration does).  Async effects are
embedded by passing the outcomes of the external actions (move results,
pickup results) as explicit data, and thrown exceptions become `Except`.
-/

namespace ParcelPredator

/-! ## JS `Map` as an insertion-ordered association list -/

/-- JS `Map.prototype.set`: overwrite the entry in place if the key is
present, append at the end otherwise. -/
def jsSet {α : Type} : List (String × α) → String → α → List (String × α)
  | [], k, v => [(k, v)]
  | (k0, v0) :: rest, k, v =>
    if k0 = k then (k, v) :: rest else (k0, v0) :: jsSet rest k v

/-- JS `Map.prototype.get`: first entry with the key, if any. -/
def jsGet {α : Type} : List (String × α) → String → Option α
  | [], _ => none
  | (k0, v0) :: rest, k => if k0 = k then some v0 else jsGet rest k

/-- JS `Map.prototype.delete`: drop the entry with the key. -/
def jsDelete {α : Type} (m : List (String × α)) (k : String) : List (String × α) :=
  m.filter (fun e => e.1 ≠ k)

/-! ## Belief store: parcels with reward decay (src/bdi/belief.js) -/

/-- Parcel record as stored in `Belief.parcels`
(`{id, x, y, reward, carriedBy, timestamp, observedReward}`). -/
structure Parcel where
  id : String
  x : Int
  y : Int
  reward : ℚ
  observedReward : ℚ
  carriedBy : Option String
  timestamp : Int
deriving DecidableEq, Repr

/-- Decayed reward estimate used in `checkExpiredParcels` and
`getFreeParcels`: `observedReward - (elapsed / 1000) * lossForSecond`
(not yet clamped at 0). -/
def estimatedReward (p : Parcel) (lossForSecond : ℚ) (now : Int) : ℚ :=
  p.observedReward - (((now - p.timestamp : Int) : ℚ) / 1000) * lossForSecond

/-- Belief.checkExpiredParcels: drop parcels unseen for 2000ms or whose
decayed reward estimate is ≤ 0. -/
def checkExpiredParcels (parcels : List Parcel) (lossForSecond : ℚ) (now : Int) :
    List Parcel :=
  parcels.filter fun p =>
    ¬(now - p.timestamp ≥ 2000 ∨ estimatedReward p lossForSecond now ≤ 0)

/-- Test from `getFreeParcels`:
`p.carriedBy === null || p.carriedBy === undefined || p.carriedBy === ''`
(null and undefined collapse to `none` in the embedding). -/
def isFreeParcel (p : Parcel) : Bool :=
  p.carriedBy = none ∨ p.carriedBy = some ""

/-- Clamped decay estimate reported by `getFreeParcels`:
`Math.max(0, observedReward - decayLoss)`. -/
def currentReward (p : Parcel) (lossForSecond : ℚ) (now : Int) : ℚ :=
  max 0 (estimatedReward p lossForSecond now)

/-- Belief.getFreeParcels: prune expired parcels, keep the non-carried ones,
re-stamp each with its clamped decayed reward, and drop those at reward 0. -/
def getFreeParcels (parcels : List Parcel) (lossForSecond : ℚ) (now : Int) :
    List Parcel :=
  (((checkExpiredParcels parcels lossForSecond now).filter isFreeParcel).map
    (fun p => { p with reward := currentReward p lossForSecond now })).filter
    (fun p => p.reward > 0)

/-! ## Belief store: cooldown registry (src/bdi/belief.js) -/

/-- Composite key used by the cooldown registry. -/
def cooldownKey (kind key : String) : String := kind ++ ":" ++ key

/-- Belief.setCooldown: store `Date.now() + ms` under `kind:key`. -/
def setCooldown (cooldowns : List (String × Int)) (kind key : String)
    (ms now : Int) : List (String × Int) :=
  jsSet cooldowns (cooldownKey kind key) (now + ms)

/-- Belief.isOnCooldown.  Returns the boolean answer together with the
updated registry (an expired entry is deleted on read).  The JS guard
`if (!until) return false` also fires on the falsy timestamp 0, which the
embedding reproduces. -/
def isOnCooldown (cooldowns : List (String × Int)) (kind key : String)
    (now : Int) : Bool × List (String × Int) :=
  match jsGet cooldowns (cooldownKey kind key) with
  | none => (false, cooldowns)
  | some untilTs =>
    if untilTs = 0 then (false, cooldowns)
    else if now ≥ untilTs then (false, jsDelete cooldowns (cooldownKey kind key))
    else (true, cooldowns)

/-- Belief.clearCooldown: remove the entry (the JS `has` pre-check does not
change the resulting map). -/
def clearCooldown (cooldowns : List (String × Int)) (kind key : String) :
    List (String × Int) :=
  jsDelete cooldowns (cooldownKey kind key)

/-! ## Belief store: claim registry (src/bdi/belief.js) -/

/-- Intention predicate array `[action, x, y, id, score]` destructured by
`registerClaim`. -/
structure IntentionPredicate where
  action : String
  x : Int
  y : Int
  id : String
  score : ℚ
deriving DecidableEq, Repr

/-- Claim record stored by `registerClaim`:
`{action, x, y, targetId, score, timestamp}`. -/
structure Claim where
  action : String
  x : Int
  y : Int
  targetId : String
  score : ℚ
  timestamp : Int
deriving DecidableEq, Repr

/-- Claim built from a predicate at registration time. -/
def claimOfPredicate (pred : IntentionPredicate) (now : Int) : Claim :=
  { action := pred.action, x := pred.x, y := pred.y, targetId := pred.id,
    score := pred.score, timestamp := now }

/-- Belief.registerClaim: `this._claims.set(agentId, {...})`. -/
def registerClaim (claims : List (String × Claim)) (agentId : String)
    (pred : IntentionPredicate) (now : Int) : List (String × Claim) :=
  jsSet claims agentId (claimOfPredicate pred now)

/-- Fixed claim time-to-live (`CLAIM_TTL = 3000` in `getClaims`). -/
def CLAIM_TTL : Int := 3000

/-- Belief.getClaims: lazily prune entries with `now - timestamp > CLAIM_TTL`
and return the surviving map (the prune mutates the stored map, so the
returned list is also the new registry state). -/
def getClaims (claims : List (String × Claim)) (now : Int) :
    List (String × Claim) :=
  claims.filter fun e => ¬(now - e.2.timestamp > CLAIM_TTL)

/-- Belief.isParcelClaimed: first active `go_pick_up` claim on the parcel. -/
def isParcelClaimed (claims : List (String × Claim)) (now : Int)
    (parcelId : String) : Option (String × Claim) :=
  (getClaims claims now).find? fun e =>
    e.2.action = "go_pick_up" ∧ e.2.targetId = parcelId

/-- Loop body of `shouldYieldClaim` over the pruned claim list: skip our own
entry, and yield to the first competing `go_pick_up` claim on the parcel
whose score is strictly higher, or equal with a lexicographically smaller
agent id.  (`claim.score || 0` is the identity on numeric scores.) -/
def shouldYieldScan (parcelId myId : String) (myScore : ℚ) :
    List (String × Claim) → Option (String × String)
  | [] => none
  | (agentId, c) :: rest =>
    if agentId = myId then shouldYieldScan parcelId myId myScore rest
    else if c.action = "go_pick_up" ∧ c.targetId = parcelId then
      if c.score > myScore then some (agentId, "higher score")
      else if c.score = myScore ∧ agentId < myId then
        some (agentId, "tie-break (agentId)")
      else shouldYieldScan parcelId myId myScore rest
    else shouldYieldScan parcelId myId myScore rest

/-- Belief.shouldYieldClaim: prune, then scan; returns
`{yieldTo, reason}` or null. -/
def shouldYieldClaim (claims : List (String × Claim)) (now : Int)
    (parcelId myId : String) (myScore : ℚ) : Option (String × String) :=
  shouldYieldScan parcelId myId myScore (getClaims claims now)

/-! ## Association-list lemmas -/

theorem jsGet_jsSet_self {α : Type} (m : List (String × α)) (k : String) (v : α) :
    jsGet (jsSet m k v) k = some v := by
  induction m with
  | nil => simp [jsSet, jsGet]
  | cons e rest ih =>
    obtain ⟨k0, v0⟩ := e
    by_cases h : k0 = k
    · simp [jsSet, jsGet, h]
    · simp [jsSet, jsGet, h, ih]

theorem jsGet_jsDelete_self {α : Type} (m : List (String × α)) (k : String) :
    jsGet (jsDelete m k) k = none := by
  induction m with
  | nil => simp [jsDelete, jsGet]
  | cons e rest ih =>
    obtain ⟨k0, v0⟩ := e
    by_cases h : k0 = k
    · simpa [jsDelete, h] using ih
    · simpa [jsDelete, jsGet, h] using ih

theorem mem_jsSet {α : Type} (m : List (String × α)) (k : String) (v : α) :
    ∀ e ∈ jsSet m k v, e = (k, v) ∨ e ∈ m := by
  induction m with
  | nil => simp [jsSet]
  | cons e0 rest ih =>
    obtain ⟨k0, v0⟩ := e0
    intro e he
    by_cases h : k0 = k
    · simp only [jsSet, if_pos h, List.mem_cons] at he
      rcases he with he1 | he1
      · exact Or.inl he1
      · exact Or.inr (List.mem_cons_of_mem _ he1)
    · simp only [jsSet, if_neg h, List.mem_cons] at he
      rcases he with he1 | he1
      · exact Or.inr (by simp [he1])
      · rcases ih e he1 with h1 | h1
        · exact Or.inl h1
        · exact Or.inr (List.mem_cons_of_mem _ h1)

theorem jsGet_eq_none_of_not_mem_keys {α : Type} {m : List (String × α)}
    {k : String} (h : k ∉ m.map Prod.fst) : jsGet m k = none := by
  induction m with
  | nil => simp [jsGet]
  | cons e rest ih =>
    obtain ⟨k0, v0⟩ := e
    simp only [List.map_cons, List.mem_cons] at h
    push_neg at h
    have h0 : ¬ k0 = k := fun hh => h.1 hh.symm
    simp [jsGet, h0, ih h.2]

/-! ## Claim C8: claim TTL visibility -/

theorem getClaims_registerClaim_get (m : List (String × Claim)) (aid : String)
    (pred : IntentionPredicate) (T t : Int)
    (hnd : (m.map Prod.fst).Nodup) :
    jsGet (getClaims (registerClaim m aid pred T) t) aid
      = if t - T > CLAIM_TTL then none else some (claimOfPredicate pred T) := by
  induction m with
  | nil =>
    by_cases h : t - T > CLAIM_TTL
    · have h2 : ¬ t ≤ CLAIM_TTL + T := by omega
      have h3 : ¬ t - T ≤ CLAIM_TTL := by omega
      simp [registerClaim, jsSet, getClaims, claimOfPredicate, jsGet, h, h2, h3]
    · have h2 : t ≤ CLAIM_TTL + T := by omega
      have h3 : t - T ≤ CLAIM_TTL := by omega
      simp [registerClaim, jsSet, getClaims, claimOfPredicate, jsGet, h, h2, h3]
  | cons e rest ih =>
    obtain ⟨k0, v0⟩ := e
    simp only [List.map_cons, List.nodup_cons] at hnd
    by_cases hk : k0 = aid
    · subst hk
      have hrest : jsGet (getClaims rest t) k0 = none := by
        apply jsGet_eq_none_of_not_mem_keys
        intro hmem
        apply hnd.1
        rcases List.mem_map.mp hmem with ⟨e2, he2, rfl⟩
        exact List.mem_map_of_mem _ (List.mem_of_mem_filter he2)
      by_cases h : t - T > CLAIM_TTL
      · have h2 : ¬ t ≤ CLAIM_TTL + T := by omega
        have h3 : ¬ t - T ≤ CLAIM_TTL := by omega
        simp [registerClaim, jsSet, getClaims, claimOfPredicate, jsGet, h, h2, h3] at hrest ⊢
        exact hrest
      · have h2 : t ≤ CLAIM_TTL + T := by omega
        have h3 : t - T ≤ CLAIM_TTL := by omega
        simp [registerClaim, jsSet, getClaims, claimOfPredicate, jsGet, h, h2, h3]
    · have ihr := ih hnd.2
      by_cases hv : t - v0.timestamp > CLAIM_TTL
      · have h2 : ¬ t ≤ CLAIM_TTL + v0.timestamp := by omega
        simpa [registerClaim, jsSet, getClaims, hk, hv, h2] using ihr
      · have h2 : t ≤ CLAIM_TTL + v0.timestamp := by omega
        simpa [registerClaim, jsSet, getClaims, jsGet, hk, hv, h2] using ihr

/-- Claim C8: a claim registered at time `T` is still returned by `getClaims`
at every read strictly before `T + CLAIM_TTL`, and is gone (pruned lazily on
read) at every read strictly after `T + CLAIM_TTL`. -/
theorem claim_ttl_visibility (m : List (String × Claim)) (aid : String)
    (pred : IntentionPredicate) (T t : Int)
    (hnd : (m.map Prod.fst).Nodup) :
    (t < T + CLAIM_TTL →
      jsGet (getClaims (registerClaim m aid pred T) t) aid
        = some (claimOfPredicate pred T))
    ∧ (t > T + CLAIM_TTL →
      jsGet (getClaims (registerClaim m aid pred T) t) aid = none) := by
  constructor
  · intro h
    rw [getClaims_registerClaim_get m aid pred T t hnd, if_neg (by omega)]
  · intro h
    rw [getClaims_registerClaim_get m aid pred T t hnd, if_pos (by omega)]

/-- Witness for C8: concrete claim registered at `T = 0` with TTL 3000 is
visible at 2999 and pruned at 3001. -/
theorem claim_ttl_visibility_witness :
    (jsGet (getClaims (registerClaim [] "agentA" ⟨"go_pick_up", 1, 2, "p1", 5⟩ 0) 2999) "agentA"
      = some (claimOfPredicate ⟨"go_pick_up", 1, 2, "p1", 5⟩ 0))
    ∧ (jsGet (getClaims (registerClaim [] "agentA" ⟨"go_pick_up", 1, 2, "p1", 5⟩ 0) 3001) "agentA"
      = none) :=
  ⟨(claim_ttl_visibility [] "agentA" ⟨"go_pick_up", 1, 2, "p1", 5⟩ 0 2999
      (by simp)).1 (by decide),
   (claim_ttl_visibility [] "agentA" ⟨"go_pick_up", 1, 2, "p1", 5⟩ 0 3001
      (by simp)).2 (by decide)⟩

/-! ## Claim C9: cooldown lifecycle -/

/-- Claim C9: immediately after `setCooldown kind key d` (positive `d`,
nonnegative clock) `isOnCooldown` answers true; at or after `now + d` it
answers false and the entry is dropped on read, leaving the registry exactly
as if the cooldown were absent; and `clearCooldown` removes the entry at any
time. -/
theorem cooldown_lifecycle (m : List (String × Int)) (kind key : String)
    (d t0 t : Int) (h0 : 0 ≤ t0) (hd : 0 < d) :
    (isOnCooldown (setCooldown m kind key d t0) kind key t0).1 = true
    ∧ (t0 + d ≤ t →
        (isOnCooldown (setCooldown m kind key d t0) kind key t).1 = false)
    ∧ (t0 + d ≤ t →
        (isOnCooldown (setCooldown m kind key d t0) kind key t).2
          = jsDelete (setCooldown m kind key d t0) (cooldownKey kind key))
    ∧ jsGet (clearCooldown (setCooldown m kind key d t0) kind key)
        (cooldownKey kind key) = none := by
  have hget : jsGet (setCooldown m kind key d t0) (cooldownKey kind key)
      = some (t0 + d) := jsGet_jsSet_self m (cooldownKey kind key) (t0 + d)
  refine ⟨?_, ?_, ?_, ?_⟩
  · simp only [isOnCooldown, hget]
    rw [if_neg (by omega), if_neg (by omega)]
  · intro ht
    simp only [isOnCooldown, hget]
    rw [if_neg (by omega), if_pos (by omega)]
  · intro ht
    simp only [isOnCooldown, hget]
    rw [if_neg (by omega), if_pos (by omega)]
  · exact jsGet_jsDelete_self _ _

/-- Witness for C9 at a concrete cooldown: kind `parcel`, key `p1`,
duration 5 set at time 10, queried at 10 and 15. -/
theorem cooldown_lifecycle_witness :
    (isOnCooldown (setCooldown [] "parcel" "p1" 5 10) "parcel" "p1" 10).1 = true
    ∧ (isOnCooldown (setCooldown [] "parcel" "p1" 5 10) "parcel" "p1" 15).1 = false :=
  ⟨(cooldown_lifecycle [] "parcel" "p1" 5 10 15 (by decide) (by decide)).1,
   (cooldown_lifecycle [] "parcel" "p1" 5 10 15 (by decide) (by decide)).2.1
     (by decide)⟩

/-! ## Claim C10: an agent never yields to its own claim -/

theorem shouldYieldScan_eq_none (pid myId : String) (s : ℚ)
    (l : List (String × Claim))
    (h : ∀ e ∈ l, e.1 = myId ∨ ¬(e.2.action = "go_pick_up" ∧ e.2.targetId = pid)) :
    shouldYieldScan pid myId s l = none := by
  induction l with
  | nil => rfl
  | cons e rest ih =>
    obtain ⟨aid, c⟩ := e
    have hrest := ih fun e he => h e (List.mem_cons_of_mem _ he)
    rcases h (aid, c) (List.mem_cons_self _ _) with h1 | h1
    · simp only at h1
      simp [shouldYieldScan, h1, hrest]
    · by_cases haid : aid = myId
      · simp [shouldYieldScan, haid, hrest]
      · simp [shouldYieldScan, haid, h1, hrest]

/-- Claim C10: `shouldYieldClaim` skips the claim stored under the calling
agent's own identifier, so when every competing `go_pick_up` claim on the
parcel is the agent's own — in particular right after `registerClaim` of its
own claim into a registry with no other claim on that parcel — the call
returns null. -/
theorem shouldYield_skips_own_claim (m : List (String × Claim)) (myId : String)
    (pred : IntentionPredicate) (T now : Int) (pid : String) (s : ℚ)
    (h : ∀ e ∈ m, e.1 = myId ∨ ¬(e.2.action = "go_pick_up" ∧ e.2.targetId = pid)) :
    shouldYieldClaim (registerClaim m myId pred T) now pid myId s = none := by
  apply shouldYieldScan_eq_none
  intro e he
  have he2 : e ∈ registerClaim m myId pred T := List.mem_of_mem_filter he
  rcases mem_jsSet m myId (claimOfPredicate pred T) e he2 with h1 | h1
  · exact Or.inl (by rw [h1])
  · exact h e h1

/-- Witness for C10: an agent that just registered the only claim on parcel
`p1` does not yield to itself. -/
theorem shouldYield_skips_own_claim_witness :
    shouldYieldClaim (registerClaim [] "agentA" ⟨"go_pick_up", 1, 2, "p1", 5⟩ 100)
      150 "p1" "agentA" 5 = none :=
  shouldYield_skips_own_claim [] "agentA" ⟨"go_pick_up", 1, 2, "p1", 5⟩ 100 150
    "p1" 5 (by simp)

/-! ## Claim C2: deterministic, symmetric claim tie-break -/

theorem shouldYieldScan_single (pid myId oid : String) (myScore : ℚ) (oc : Claim)
    (hne : oid ≠ myId) (hact : oc.action = "go_pick_up") (htar : oc.targetId = pid) :
    (shouldYieldScan pid myId myScore [(oid, oc)]).isSome
      ↔ (oc.score > myScore ∨ (oc.score = myScore ∧ oid < myId)) := by
  by_cases h1 : oc.score > myScore
  · simp [shouldYieldScan, hne, hact, htar, h1]
  · by_cases h2 : oc.score = myScore ∧ oid < myId
    · simp [shouldYieldScan, hne, hact, htar, h1, h2]
    · simp [shouldYieldScan, hne, hact, htar, h1, h2]

theorem shouldYieldScan_own_tail (pid myId oid : String) (s : ℚ) (oc mc : Claim) :
    shouldYieldScan pid myId s [(oid, oc), (myId, mc)]
      = shouldYieldScan pid myId s [(oid, oc)] := by
  by_cases hne : oid = myId
  · simp [shouldYieldScan, hne]
  · by_cases hmt : oc.action = "go_pick_up" ∧ oc.targetId = pid
    · by_cases h1 : oc.score > s
      · simp [shouldYieldScan, hne, hmt, h1]
      · by_cases h2 : oc.score = s ∧ oid < myId <;>
          simp [shouldYieldScan, hne, hmt, h1, h2]
    · simp [shouldYieldScan, hne, hmt]

/-- Claim C2: with two live `go_pick_up` claims on the same parcel (in either
storage order), `shouldYieldClaim` makes the local agent yield exactly when
the competing claim's score is strictly higher, or the scores tie and the
competitor's identifier sorts lexicographically first; hence on an exact tie
the agent with the smaller identifier wins no matter which side evaluates. -/
theorem claim_tiebreak_symmetric (a b pid : String) (ca cb : Claim) (now : Int)
    (claims : List (String × Claim))
    (hab : a ≠ b)
    (hca : ca.action = "go_pick_up") (hta : ca.targetId = pid)
    (hcb : cb.action = "go_pick_up") (htb : cb.targetId = pid)
    (hfa : now - ca.timestamp ≤ CLAIM_TTL) (hfb : now - cb.timestamp ≤ CLAIM_TTL)
    (hm : claims = [(a, ca), (b, cb)] ∨ claims = [(b, cb), (a, ca)]) :
    ((shouldYieldClaim claims now pid a ca.score).isSome
        ↔ (cb.score > ca.score ∨ (cb.score = ca.score ∧ b < a)))
    ∧ ((shouldYieldClaim claims now pid b cb.score).isSome
        ↔ (ca.score > cb.score ∨ (ca.score = cb.score ∧ a < b)))
    ∧ (cb.score = ca.score →
        (((shouldYieldClaim claims now pid a ca.score).isSome ↔ b < a)
          ∧ ((shouldYieldClaim claims now pid b cb.score).isSome ↔ a < b))) := by
  have hka : ¬(now - ca.timestamp > CLAIM_TTL) := by omega
  have hkb : ¬(now - cb.timestamp > CLAIM_TTL) := by omega
  have hprune : getClaims claims now = claims := by
    rcases hm with rfl | rfl <;> simp [getClaims, hka, hkb] <;> omega
  have hyA : (shouldYieldClaim claims now pid a ca.score).isSome
      ↔ (cb.score > ca.score ∨ (cb.score = ca.score ∧ b < a)) := by
    rcases hm with rfl | rfl
    · rw [shouldYieldClaim, hprune]
      have hskip : shouldYieldScan pid a ca.score [(a, ca), (b, cb)]
          = shouldYieldScan pid a ca.score [(b, cb)] := by
        simp [shouldYieldScan]
      rw [hskip]
      exact shouldYieldScan_single pid a b ca.score cb (Ne.symm hab) hcb htb
    · rw [shouldYieldClaim, hprune, shouldYieldScan_own_tail]
      exact shouldYieldScan_single pid a b ca.score cb (Ne.symm hab) hcb htb
  have hyB : (shouldYieldClaim claims now pid b cb.score).isSome
      ↔ (ca.score > cb.score ∨ (ca.score = cb.score ∧ a < b)) := by
    rcases hm with rfl | rfl
    · rw [shouldYieldClaim, hprune, shouldYieldScan_own_tail]
      exact shouldYieldScan_single pid b a cb.score ca hab hca hta
    · rw [shouldYieldClaim, hprune]
      have hskip : shouldYieldScan pid b cb.score [(b, cb), (a, ca)]
          = shouldYieldScan pid b cb.score [(a, ca)] := by
        simp [shouldYieldScan]
      rw [hskip]
      exact shouldYieldScan_single pid b a cb.score ca hab hca hta
  refine ⟨hyA, hyB, fun heq => ⟨?_, ?_⟩⟩
  · rw [hyA, heq]
    simp
  · rw [hyB, ← heq]
    simp

/-- Witness for C2: agents `a2` and `a1` both claim parcel `p1` with score 5;
on this exact tie, `a1` (lexicographically smaller) wins on both sides. -/
theorem claim_tiebreak_symmetric_witness :
    ((shouldYieldClaim [("a2", ⟨"go_pick_up", 1, 2, "p1", 5, 0⟩),
        ("a1", ⟨"go_pick_up", 3, 4, "p1", 5, 10⟩)] 100 "p1" "a2" 5).isSome
      ↔ ((5 : ℚ) > 5 ∨ ((5 : ℚ) = 5 ∧ "a1" < "a2")))
    ∧ ((shouldYieldClaim [("a2", ⟨"go_pick_up", 1, 2, "p1", 5, 0⟩),
        ("a1", ⟨"go_pick_up", 3, 4, "p1", 5, 10⟩)] 100 "p1" "a1" 5).isSome
      ↔ ((5 : ℚ) > 5 ∨ ((5 : ℚ) = 5 ∧ "a2" < "a1"))) := by
  have h := claim_tiebreak_symmetric "a2" "a1" "p1"
    ⟨"go_pick_up", 1, 2, "p1", 5, 0⟩ ⟨"go_pick_up", 3, 4, "p1", 5, 10⟩ 100
    [("a2", ⟨"go_pick_up", 1, 2, "p1", 5, 0⟩),
     ("a1", ⟨"go_pick_up", 3, 4, "p1", 5, 10⟩)]
    (by decide) rfl rfl rfl rfl (by decide) (by decide) (Or.inl rfl)
  exact ⟨h.1, h.2.1⟩

/-! ## Claim C3: parcel reward decay and expiry -/

/-- Claim C3: the reward estimate reported by `getFreeParcels` for an
observed parcel equals `max 0 (observed - (t - observedAt)/1000 * loss)`,
that estimate is monotonically non-increasing in the query time, and the
parcel is omitted from `getFreeParcels` once the estimate is 0 or once
`t - observedAt` reaches the 2000ms freshness window. -/
theorem parcel_decay_monotone_and_expiry (parcels : List Parcel) (p : Parcel)
    (loss : ℚ) (hloss : 0 ≤ loss) (t1 t2 tq : Int)
    (huniq : ∀ q ∈ parcels, q.id = p.id → q = p) :
    (∀ q ∈ getFreeParcels parcels loss tq, q.id = p.id →
        q.reward = currentReward p loss tq)
    ∧ (t1 ≤ t2 → currentReward p loss t2 ≤ currentReward p loss t1)
    ∧ ((currentReward p loss tq = 0 ∨ tq - p.timestamp ≥ 2000) →
        ∀ q ∈ getFreeParcels parcels loss tq, q.id ≠ p.id) := by
  have hdecomp : ∀ q ∈ getFreeParcels parcels loss tq, q.reward > 0 ∧
      ∃ q0, q0 ∈ checkExpiredParcels parcels loss tq ∧ q0 ∈ parcels ∧
        q0.id = q.id ∧ q = { q0 with reward := currentReward q0 loss tq } := by
    intro q hq
    rw [getFreeParcels, List.mem_filter] at hq
    rcases hq with ⟨hq1, hq2⟩
    rcases List.mem_map.mp hq1 with ⟨q0, hq0, rfl⟩
    have hq0c : q0 ∈ checkExpiredParcels parcels loss tq :=
      List.mem_of_mem_filter hq0
    refine ⟨by simpa using hq2, q0, hq0c,
      List.mem_of_mem_filter hq0c, rfl, rfl⟩
  refine ⟨?_, ?_, ?_⟩
  · intro q hq hid
    rcases hdecomp q hq with ⟨_, q0, _, hq0p, hid0, rfl⟩
    have hq0 : q0 = p := huniq q0 hq0p (by rw [hid0]; exact hid)
    simp [hq0]
  · intro h12
    unfold currentReward estimatedReward
    apply max_le_max le_rfl
    have hc : ((t1 - p.timestamp : Int) : ℚ) ≤ ((t2 - p.timestamp : Int) : ℚ) := by
      exact_mod_cast sub_le_sub_right h12 _
    have hdiv : ((t1 - p.timestamp : Int) : ℚ) / 1000
        ≤ ((t2 - p.timestamp : Int) : ℚ) / 1000 := by gcongr
    have hmul := mul_le_mul_of_nonneg_right hdiv hloss
    linarith
  · intro hexp q hq hid
    rcases hdecomp q hq with ⟨hpos, q0, hq0c, hq0p, hid0, heq⟩
    have hq0 : q0 = p := huniq q0 hq0p (by rw [hid0]; exact hid)
    subst hq0
    rcases hexp with hzero | hold
    · rw [heq] at hpos
      simp at hpos
      rw [hzero] at hpos
      exact lt_irrefl 0 hpos
    · rw [checkExpiredParcels, List.mem_filter] at hq0c
      have h2 := hq0c.2
      simp at h2
      omega

/-- Witness for C3: a parcel observed with reward 10 at time 0 under loss
rate 1 decays monotonically between times 0 and 500 and is absent from
`getFreeParcels` at time 2500 (past the 2000ms freshness window). -/
theorem parcel_decay_monotone_and_expiry_witness :
    (∀ q ∈ getFreeParcels [⟨"p1", 2, 3, 10, 10, none, 0⟩] 1 2500,
        q.id = "p1" → q.reward = currentReward ⟨"p1", 2, 3, 10, 10, none, 0⟩ 1 2500)
    ∧ ((0 : Int) ≤ 500 →
        currentReward ⟨"p1", 2, 3, 10, 10, none, 0⟩ 1 500
          ≤ currentReward ⟨"p1", 2, 3, 10, 10, none, 0⟩ 1 0)
    ∧ ((currentReward ⟨"p1", 2, 3, 10, 10, none, 0⟩ 1 2500 = 0
          ∨ (2500 : Int) - 0 ≥ 2000) →
        ∀ q ∈ getFreeParcels [⟨"p1", 2, 3, 10, 10, none, 0⟩] 1 2500,
          q.id ≠ "p1") :=
  parcel_decay_monotone_and_expiry [⟨"p1", 2, 3, 10, 10, none, 0⟩]
    ⟨"p1", 2, 3, 10, 10, none, 0⟩ 1 (by norm_num) 0 500 2500 (by decide)

/-! ## Option generator: multi-pick route scoring (src/bdi/options.js)

Coordinates are already integral here (the option generator rounds every
coordinate before use), so `Math.round` is the identity in this embedding.
Scores are `ℚ`; the float `-Infinity` score sentinel is `⊥ : WithBot ℚ` and
the `Infinity` cost sentinel is `⊤ : WithTop ℚ`. -/

/-- Grid position (a `{x, y}` object). -/
structure Pos where
  x : Int
  y : Int
deriving DecidableEq, Repr

/-- Grid.manhattanDistance (src/utils/grid.js):
`|x1 - x2| + |y1 - y2|` after rounding. -/
def manhattanDistance (x1 y1 x2 y2 : Int) : ℕ :=
  (x1 - x2).natAbs + (y1 - y2).natAbs

/-- Candidate parcel as consumed by the route scorer: of the enriched
records produced by `getNearbyFreeParcels`, `evaluateRoute` and
`buildGreedyRoute` read `x`, `y`, `reward` and `contentionPenalty`. -/
structure RouteParcel where
  id : String
  x : Int
  y : Int
  reward : ℚ
  contentionPenalty : ℚ
deriving DecidableEq, Repr

/-- Agent state fields read by the route scorer (`me.carried`,
`me.carriedReward`, `me.lossForMovement`; `me.lossForMovement || 0` is the
identity on numeric loss rates). -/
structure MeState where
  carried : ℕ
  carriedReward : ℚ
  lossForMovement : ℚ
deriving DecidableEq, Repr

/-- JS `q || 1` on a numeric contention penalty: 0 is falsy and falls back
to 1. -/
def jsOrOne (q : ℚ) : ℚ := if q = 0 then 1 else q

/-- Strict-minimum tracker of the `findNearestDelivery` loop (`Infinity`
initial best distance becomes `none`). -/
def betterMin (cur : Option (Pos × ℕ)) (cand : Pos) (d : ℕ) : Option (Pos × ℕ) :=
  match cur with
  | none => some (cand, d)
  | some (z, bd) => if d < bd then some (cand, d) else some (z, bd)

/-- Loop of `findNearestDelivery`, tracking best not-cooled and best overall
zones in list order. -/
def findNearestDeliveryGo (x y : Int) (cooled : Pos → Bool) :
    List Pos → Option (Pos × ℕ) → Option (Pos × ℕ) → Option (Pos × ℕ)
  | [], bestNotCooled, bestAny =>
    match bestNotCooled with
    | some r => some r
    | none => bestAny
  | z :: rest, bestNotCooled, bestAny =>
    let d := manhattanDistance x y z.x z.y
    let bestAny2 := betterMin bestAny z d
    let bestNotCooled2 := if cooled z then bestNotCooled else betterMin bestNotCooled z d
    findNearestDeliveryGo x y cooled rest bestNotCooled2 bestAny2

/-- findNearestDelivery (src/bdi/options.js): nearest delivery zone,
preferring zones not on cooldown, with its Manhattan distance; `none` when
there are no zones.  `evaluateRoute` calls it without a belief, so every
zone counts as not cooled there. -/
def findNearestDelivery (x y : Int) (deliveryZones : List Pos)
    (cooled : Pos → Bool) : Option (Pos × ℕ) :=
  findNearestDeliveryGo x y cooled deliveryZones none none

/-- Route segment recorded by `evaluateRoute` (`from`/`to` become
`fromPos`/`toPos`). -/
structure Segment where
  fromPos : Pos
  toPos : Pos
  dist : ℕ
  carried : ℕ
  cost : ℚ
deriving DecidableEq, Repr

/-- Accumulator of the pickup-segment loop in `evaluateRoute`. -/
structure SegAcc where
  pos : Pos
  carried : ℕ
  totalReward : ℚ
  totalCost : ℚ
  totalContentionPenalty : ℚ
  segments : List Segment
deriving Repr

/-- One pickup segment of `evaluateRoute`: movement cost is
`distance × loss × parcels carried during the leg`; afterwards the carried
count and reward grow (`parcel.reward || 0` is the identity on numeric
rewards) and the position moves to the parcel. -/
def segStep (loss : ℚ) (acc : SegAcc) (parcel : RouteParcel) : SegAcc :=
  let segmentDist := manhattanDistance acc.pos.x acc.pos.y parcel.x parcel.y
  let segmentCost := (segmentDist : ℚ) * loss * (acc.carried : ℚ)
  { pos := ⟨parcel.x, parcel.y⟩
    carried := acc.carried + 1
    totalReward := acc.totalReward + parcel.reward
    totalCost := acc.totalCost + segmentCost
    totalContentionPenalty := acc.totalContentionPenalty
      + jsOrOne parcel.contentionPenalty
    segments := acc.segments ++
      [⟨acc.pos, ⟨parcel.x, parcel.y⟩, segmentDist, acc.carried, segmentCost⟩] }

/-- Result record of `evaluateRoute`. -/
structure RouteEval where
  totalReward : ℚ
  totalCost : WithTop ℚ
  netScore : WithBot ℚ
  deliveryZone : Option Pos
  segments : List Segment
  avgContentionPenalty : ℚ
deriving Repr

/-- evaluateRoute (src/bdi/options.js): walk the pickup sequence from
`start` accumulating movement costs (`dist × loss × carried-during-leg`),
rewards and contention penalties, then add the final leg to the nearest
delivery zone, and report `netScore = (Σ rewards − Σ costs) × avg penalty`.
An empty sequence or a missing delivery zone scores `-Infinity`. -/
def evaluateRoute (start : Pos) (sequence : List RouteParcel)
    (deliveryZones : List Pos) (me : MeState) : RouteEval :=
  if sequence = [] then
    { totalReward := 0, totalCost := (0 : ℚ), netScore := ⊥,
      deliveryZone := none, segments := [], avgContentionPenalty := 1 }
  else
    let loss := me.lossForMovement
    let acc := sequence.foldl (segStep loss)
      { pos := start, carried := me.carried, totalReward := me.carriedReward,
        totalCost := 0, totalContentionPenalty := 0, segments := [] }
    let avgContentionPenalty := acc.totalContentionPenalty / (sequence.length : ℚ)
    match findNearestDelivery acc.pos.x acc.pos.y deliveryZones (fun _ => false) with
    | none =>
      { totalReward := 0, totalCost := ⊤, netScore := ⊥,
        deliveryZone := none, segments := acc.segments, avgContentionPenalty := 1 }
    | some (deliveryZone, deliveryDist) =>
      let deliveryCost := (deliveryDist : ℚ) * loss * (acc.carried : ℚ)
      let totalCost := acc.totalCost + deliveryCost
      let baseScore := acc.totalReward - totalCost
      let netScore := baseScore * avgContentionPenalty
      { totalReward := acc.totalReward, totalCost := (totalCost : ℚ),
        netScore := (netScore : ℚ), deliveryZone := some deliveryZone,
        segments := acc.segments ++
          [⟨acc.pos, deliveryZone, deliveryDist, acc.carried, deliveryCost⟩],
        avgContentionPenalty := avgContentionPenalty }

/-- Inner candidate scan of `buildGreedyRoute`: try each remaining parcel as
the next pickup and keep the index whose extended sequence scores strictly
best (initial best is `bestIdx = -1`, here `none`, at score `-Infinity`). -/
def bestExtScan (start : Pos) (deliveryZones : List Pos) (me : MeState)
    (sequence : List RouteParcel) :
    List RouteParcel → ℕ → Option ℕ × WithBot ℚ → Option ℕ × WithBot ℚ
  | [], _, acc => acc
  | c :: rest, i, acc =>
    let sc := (evaluateRoute start (sequence ++ [c]) deliveryZones me).netScore
    if sc > acc.2 then bestExtScan start deliveryZones me sequence rest (i + 1) (some i, sc)
    else bestExtScan start deliveryZones me sequence rest (i + 1) acc

/-- While-loop of `buildGreedyRoute`.  Each iteration removes one candidate
from `remaining`, so `remaining.length` is an exact fuel: the loop condition
`remaining.length > 0` fails exactly when the fuel runs out.  The loop stops
when capacity is reached, no candidate exists (`bestIdx === -1`), or the
best extension score is not positive (`bestScore <= 0`). -/
def greedyLoop (start : Pos) (deliveryZones : List Pos) (me : MeState)
    (maxPicks : ℕ) : ℕ → List RouteParcel → List RouteParcel → List RouteParcel
  | 0, sequence, _ => sequence
  | fuel + 1, sequence, remaining =>
    if sequence.length < maxPicks ∧ remaining ≠ [] then
      match bestExtScan start deliveryZones me sequence remaining 0 (none, ⊥) with
      | (none, _) => sequence
      | (some bestIdx, bestScore) =>
        if bestScore ≤ 0 then sequence
        else if hi : bestIdx < remaining.length then
          greedyLoop start deliveryZones me maxPicks fuel
            (sequence ++ [remaining.get ⟨bestIdx, hi⟩])
            (remaining.eraseIdx bestIdx)
        else sequence
    else sequence

/-- buildGreedyRoute (src/bdi/options.js): greedy nearest-neighbour route,
iteratively appending the candidate parcel that maximizes the extended
sequence's `netScore`, as long as that score is positive. -/
def buildGreedyRoute (start : Pos) (candidates : List RouteParcel)
    (deliveryZones : List Pos) (me : MeState) (maxPicks : ℕ) :
    List RouteParcel :=
  greedyLoop start deliveryZones me maxPicks candidates.length [] candidates

/-! ## Claim C1: greedy route construction vs the best single-parcel score

The loop of `buildGreedyRoute` stops only when no extension has a strictly
positive `netScore` (`bestScore <= 0`), not when no extension improves on
the current score, so the final score can drop below the best single-parcel
score while staying positive. -/

theorem bestExtScan_mem (start : Pos) (zones : List Pos) (me : MeState)
    (seq : List RouteParcel) :
    ∀ (l : List RouteParcel) (i0 : ℕ) (acc : Option ℕ × WithBot ℚ)
      (j : ℕ) (sc : WithBot ℚ),
      bestExtScan start zones me seq l i0 acc = (some j, sc) →
      acc = (some j, sc) ∨
        ∃ c, sc = (evaluateRoute start (seq ++ [c]) zones me).netScore ∧
          ∃ k, l.get? k = some c ∧ j = i0 + k := by
  intro l
  induction l with
  | nil =>
    intro i0 acc j sc h
    simp only [bestExtScan] at h
    exact Or.inl h
  | cons c rest ih =>
    intro i0 acc j sc h
    simp only [bestExtScan] at h
    by_cases hc : (evaluateRoute start (seq ++ [c]) zones me).netScore > acc.2
    · rw [if_pos hc] at h
      rcases ih (i0 + 1) _ j sc h with h1 | h1
      · obtain ⟨h2, h3⟩ := Prod.mk.injEq .. |>.mp h1
        have h4 : i0 = j := by simpa using h2
        right
        exact ⟨c, h3.symm, 0, by simp, by omega⟩
      · rcases h1 with ⟨c2, hsc2, k, hk, hj⟩
        right
        exact ⟨c2, hsc2, k + 1, by simpa using hk, by omega⟩
    · rw [if_neg hc] at h
      rcases ih (i0 + 1) _ j sc h with h1 | h1
      · exact Or.inl h1
      · rcases h1 with ⟨c2, hsc2, k, hk, hj⟩
        right
        exact ⟨c2, hsc2, k + 1, by simpa using hk, by omega⟩

theorem greedyLoop_inv (start : Pos) (zones : List Pos) (me : MeState)
    (maxPicks : ℕ) :
    ∀ (fuel : ℕ) (remaining seq : List RouteParcel),
      (seq = [] ∨ (0 : WithBot ℚ) < (evaluateRoute start seq zones me).netScore) →
      (greedyLoop start zones me maxPicks fuel seq remaining = [] ∨
        (0 : WithBot ℚ) < (evaluateRoute start
          (greedyLoop start zones me maxPicks fuel seq remaining) zones me).netScore) := by
  intro fuel
  induction fuel with
  | zero =>
    intro remaining seq h
    simpa [greedyLoop] using h
  | succ fuel ih =>
    intro remaining seq h
    rw [greedyLoop]
    by_cases hcond : seq.length < maxPicks ∧ remaining ≠ []
    · rw [if_pos hcond]
      rcases hbe : bestExtScan start zones me seq remaining 0 (none, ⊥) with ⟨bIdx, bSc⟩
      cases bIdx with
      | none => exact h
      | some i =>
        dsimp only
        by_cases hsc : bSc ≤ 0
        · rw [if_pos hsc]
          exact h
        · rw [if_neg hsc]
          by_cases hi : i < remaining.length
          · rw [dif_pos hi]
            apply ih
            right
            rcases bestExtScan_mem start zones me seq remaining 0 (none, ⊥) i bSc hbe with
              h1 | h1
            · exact absurd h1 (by simp)
            · rcases h1 with ⟨c, hscEq, k, hk, hj⟩
              have hki : k = i := by omega
              subst hki
              have hcg : remaining.get ⟨k, hi⟩ = c := by
                have hg := List.get?_eq_get hi
                rw [hg] at hk
                exact Option.some.injEq .. |>.mp hk
              rw [hcg, ← hscEq]
              exact lt_of_not_le hsc
          · rw [dif_neg hi]
            exact h
    · rw [if_neg hcond]
      exact h

/-- Claim C1, amended: a non-empty pickup sequence returned by
`buildGreedyRoute` always has a strictly positive `netScore` — extension
continues whenever some candidate yields a positive score, even one below
the current score, so positivity (not monotonicity over the best
single-parcel score) is what the construction guarantees. -/
theorem buildGreedyRoute_netScore_pos (start : Pos) (candidates : List RouteParcel)
    (zones : List Pos) (me : MeState) (maxPicks : ℕ)
    (h : buildGreedyRoute start candidates zones me maxPicks ≠ []) :
    (0 : WithBot ℚ) < (evaluateRoute start
      (buildGreedyRoute start candidates zones me maxPicks) zones me).netScore := by
  rcases greedyLoop_inv start zones me maxPicks candidates.length candidates []
      (Or.inl rfl) with h1 | h1
  · exact absurd h1 h
  · exact h1

theorem greedy_cex_route :
    buildGreedyRoute ⟨0, 0⟩ [⟨"A", 0, 1, 10, 1⟩, ⟨"B", 0, 2, 1, 1⟩]
        [⟨0, 0⟩] ⟨0, 0, 1⟩ 3
      = [⟨"A", 0, 1, 10, 1⟩, ⟨"B", 0, 2, 1, 1⟩] := by
  have hb9 : (⊥ : WithBot ℚ) < (9 : WithBot ℚ) := by
    exact_mod_cast WithBot.bot_lt_coe (9 : ℚ)
  have hb6 : (⊥ : WithBot ℚ) < (6 : WithBot ℚ) := by
    exact_mod_cast WithBot.bot_lt_coe (6 : ℚ)
  have h9c : (9 : WithBot ℚ) = ((9 : ℚ) : WithBot ℚ) := rfl
  have h9m1 : ¬((9 : WithBot ℚ) < ((-1 : ℚ) : WithBot ℚ)) := by
    rw [not_lt, h9c, WithBot.coe_le_coe]
    norm_num
  have h90 : ¬((9 : WithBot ℚ) ≤ (0 : WithBot ℚ)) := by norm_num
  have h60 : ¬((6 : WithBot ℚ) ≤ (0 : WithBot ℚ)) := by norm_num
  have hne : ([⟨"A", 0, 1, 10, 1⟩, ⟨"B", 0, 2, 1, 1⟩] : List RouteParcel) = [] ↔ False := by
    simp
  norm_num [buildGreedyRoute, greedyLoop, bestExtScan, evaluateRoute, segStep,
    findNearestDelivery, findNearestDeliveryGo, betterMin, manhattanDistance, jsOrOne,
    apply_ite RouteEval.netScore, hb9, hb6, h9m1, h90, h60, hne]

theorem greedy_cex_eval_pair :
    (evaluateRoute ⟨0, 0⟩ [⟨"A", 0, 1, 10, 1⟩, ⟨"B", 0, 2, 1, 1⟩]
        [⟨0, 0⟩] ⟨0, 0, 1⟩).netScore = ((6 : ℚ) : WithBot ℚ) := by
  have hne : ([⟨"A", 0, 1, 10, 1⟩, ⟨"B", 0, 2, 1, 1⟩] : List RouteParcel) = [] ↔ False := by
    simp
  norm_num [evaluateRoute, segStep, findNearestDelivery, findNearestDeliveryGo,
    betterMin, manhattanDistance, jsOrOne, hne]

theorem greedy_cex_eval_single_A :
    (evaluateRoute ⟨0, 0⟩ [⟨"A", 0, 1, 10, 1⟩] [⟨0, 0⟩] ⟨0, 0, 1⟩).netScore
      = ((9 : ℚ) : WithBot ℚ) := by
  norm_num [evaluateRoute, segStep, findNearestDelivery, findNearestDeliveryGo,
    betterMin, manhattanDistance, jsOrOne]

theorem greedy_cex_eval_single_B :
    (evaluateRoute ⟨0, 0⟩ [⟨"B", 0, 2, 1, 1⟩] [⟨0, 0⟩] ⟨0, 0, 1⟩).netScore
      = ((-1 : ℚ) : WithBot ℚ) := by
  norm_num [evaluateRoute, segStep, findNearestDelivery, findNearestDeliveryGo,
    betterMin, manhattanDistance, jsOrOne]

/-- Counterexample to claim C1 as stated: from (0,0) with two free parcels —
reward 10 at (0,1) and reward 1 at (0,2) — one delivery zone at (0,0), no
carried load and movement loss 1, the greedy route picks both parcels and
scores 6, strictly below the best single-parcel score 9. -/
theorem buildGreedyRoute_below_best_single :
    (evaluateRoute ⟨0, 0⟩
        (buildGreedyRoute ⟨0, 0⟩ [⟨"A", 0, 1, 10, 1⟩, ⟨"B", 0, 2, 1, 1⟩]
          [⟨0, 0⟩] ⟨0, 0, 1⟩ 3)
        [⟨0, 0⟩] ⟨0, 0, 1⟩).netScore
      < max ((evaluateRoute ⟨0, 0⟩ [⟨"A", 0, 1, 10, 1⟩] [⟨0, 0⟩] ⟨0, 0, 1⟩).netScore)
          ((evaluateRoute ⟨0, 0⟩ [⟨"B", 0, 2, 1, 1⟩] [⟨0, 0⟩] ⟨0, 0, 1⟩).netScore) := by
  rw [greedy_cex_route, greedy_cex_eval_pair, greedy_cex_eval_single_A,
    greedy_cex_eval_single_B]
  rw [max_eq_left (by rw [WithBot.coe_le_coe]; norm_num), WithBot.coe_lt_coe]
  norm_num

/-- Witness for the amended C1 at the counterexample input: the greedy route
is non-empty and its netScore is strictly positive (it equals 6). -/
theorem buildGreedyRoute_netScore_pos_witness :
    buildGreedyRoute ⟨0, 0⟩ [⟨"A", 0, 1, 10, 1⟩, ⟨"B", 0, 2, 1, 1⟩]
        [⟨0, 0⟩] ⟨0, 0, 1⟩ 3 ≠ []
    ∧ (0 : WithBot ℚ) < (evaluateRoute ⟨0, 0⟩
        (buildGreedyRoute ⟨0, 0⟩ [⟨"A", 0, 1, 10, 1⟩, ⟨"B", 0, 2, 1, 1⟩]
          [⟨0, 0⟩] ⟨0, 0, 1⟩ 3)
        [⟨0, 0⟩] ⟨0, 0, 1⟩).netScore :=
  ⟨by rw [greedy_cex_route]; simp,
   buildGreedyRoute_netScore_pos ⟨0, 0⟩ [⟨"A", 0, 1, 10, 1⟩, ⟨"B", 0, 2, 1, 1⟩]
     [⟨0, 0⟩] ⟨0, 0, 1⟩ 3 (by rw [greedy_cex_route]; simp)⟩

/-! ## Plan executors (src/bdi/plans/goDeliver.js, src/bdi/plans/goPickUp.js)

The async plan bodies are embedded as functions of the outcomes of their
external actions: each `mover.execute` attempt yields a `MoverOutcome`
(returned value or thrown message), `adapter.putdown` yields a boolean, and
`adapter.pickup` yields the list of picked parcels (empty = falsy).  Thrown
JS errors become `Except.error` carrying the message.  The cooperative
`stopped` flag is constant during one embedded run (no concurrent `stop()`
arrives mid-execution), and the cooldown writes these plans perform on
failure/success paths mutate only the belief store, never the returned
result, so they are not threaded through the result type. -/

/-- Outcome of one `mover.execute('go_to', ...)` attempt: the returned value
(`true`, `"obstructed"`, or any other value) or a thrown error message. -/
inductive MoverOutcome where
  | success
  | obstructed
  | threw (msg : String)
  | other
deriving DecidableEq, Repr

/-- Carried-parcel record `{id, reward}`. -/
structure CarriedParcel where
  id : String
  reward : ℚ
deriving DecidableEq, Repr

/-- Result state of a completed `GoDeliver.execute`. -/
structure DeliverResult where
  carried : Int
  carriedReward : ℚ
  carriedParcels : List CarriedParcel
  delivered : List String
deriving DecidableEq, Repr

/-- Macro-retry movement loop of `GoDeliver.execute` over the attempt
outcomes (the caller passes one outcome per allowed attempt,
`PLAN_MAX_ATTEMPTS = 3`): success breaks out, a thrown error propagates
(`mover.execute` is not wrapped in try/catch here), `"obstructed"` on the
last attempt throws `delivery failed`, and any other outcome just lets the
loop run on — falling through after the attempts are exhausted. -/
def deliverMoveLoop : List MoverOutcome → Except String Unit
  | [] => .ok ()
  | o :: rest =>
    match o with
    | .success => .ok ()
    | .threw msg => .error msg
    | .obstructed =>
      if rest = [] then .error "delivery failed" else deliverMoveLoop rest
    | .other => deliverMoveLoop rest

/-- GoDeliver.execute (src/bdi/plans/goDeliver.js): cooldown gate, movement
macro-retry when not already on the delivery cell, then the delivery itself:
`if (this.parent.carried <= 0) throw new Error("no parcels to deliver")`,
followed by `adapter.putdown` and the carried-state reset. -/
def goDeliverExecute (stopped onCooldown : Bool) (mx my tx ty : Int)
    (moveOutcomes : List MoverOutcome) (carried : Int)
    (carriedParcels : List CarriedParcel) (putdownOk : Bool) :
    Except String DeliverResult :=
  if stopped then .error "stopped"
  else if onCooldown then .error "target on cooldown"
  else
    match (if mx ≠ tx ∨ my ≠ ty then deliverMoveLoop moveOutcomes else .ok ()) with
    | .error e => .error e
    | .ok _ =>
      if carried ≤ 0 then .error "no parcels to deliver"
      else
        if ¬putdownOk then .error "putdown failed"
        else
          .ok { carried := 0, carriedReward := 0, carriedParcels := [],
                delivered := carriedParcels.map (fun p => p.id) }

/-- Result state of a completed `GoPickUp.execute`, recording whether
`adapter.pickup` was actually invoked. -/
structure PickResult where
  result : Bool
  pickupInvoked : Bool
  carriedParcels : List CarriedParcel
deriving DecidableEq, Repr

/-- Macro-retry movement loop of `GoPickUp.execute`: `mover.execute` is
wrapped in try/catch, so a thrown `stopped` is re-thrown, a thrown
`no plan found` / `domain not found` becomes the retriable `no-plan` and any
other thrown error the retriable `error`; `"obstructed"`, `no-plan` and
`error` retry with backoff and, on the last attempt, throw
`pickup failed <id>`; any other returned value lets the loop run on. -/
def pickupMoveLoop (id : String) : List MoverOutcome → Except String Unit
  | [] => .ok ()
  | o :: rest =>
    match o with
    | .success => .ok ()
    | .threw msg =>
      if msg = "stopped" then .error "stopped"
      else if rest = [] then .error ("pickup failed " ++ id)
      else pickupMoveLoop id rest
    | .obstructed =>
      if rest = [] then .error ("pickup failed " ++ id) else pickupMoveLoop id rest
    | .other => pickupMoveLoop id rest

/-- GoPickUp.execute (src/bdi/plans/goPickUp.js): cooldown gate, movement
macro-retry when not already on the target cell, then — before attempting
the pickup — the belief check: a target id that is truthy, not the
`explore` sentinel, and no longer among `belief.getFreeParcels()` returns
success immediately without calling `adapter.pickup`.  Otherwise
`adapter.pickup` runs: an empty result is a plain `false` for `explore`
goals and `pickup failed <id>` otherwise, and a non-empty result merges the
picked parcels into `carried_parcels` (skipping ids already carried). -/
def goPickUpExecute (stopped onCooldown : Bool) (mx my tx ty : Int)
    (id : String) (moveOutcomes : List MoverOutcome)
    (beliefParcels : List Parcel) (lossForSecond : ℚ) (now : Int)
    (pickupRes : List CarriedParcel) (carriedParcels : List CarriedParcel) :
    Except String PickResult :=
  if stopped then .error "stopped"
  else if onCooldown then .error "target on cooldown"
  else
    match (if mx ≠ tx ∨ my ≠ ty then pickupMoveLoop id moveOutcomes else .ok ()) with
    | .error e => .error e
    | .ok _ =>
      if stopped then .error "stopped"
      else if id ≠ "" ∧ id ≠ "explore"
          ∧ ¬((getFreeParcels beliefParcels lossForSecond now).any
                (fun p => p.id = id)) then
        .ok { result := true, pickupInvoked := false,
              carriedParcels := carriedParcels }
      else if pickupRes = [] then
        if id = "explore" then
          .ok { result := false, pickupInvoked := true,
                carriedParcels := carriedParcels }
        else .error ("pickup failed " ++ id)
      else
        .ok { result := true, pickupInvoked := true,
              carriedParcels := pickupRes.foldl
                (fun acc p =>
                  if acc.any (fun cp => cp.id = p.id) then acc else acc ++ [p])
                carriedParcels }

/-! ## Claim C5: delivery with zero carried parcels -/

/-- Claim C5, amended: a delivery attempt executed while the agent carries
zero parcels does not complete as success — `GoDeliver.execute` raises
`no parcels to deliver` when `carried = 0` at the delivery cell. -/
theorem goDeliver_zero_carried_errors (mx my : Int)
    (moveOutcomes : List MoverOutcome) (carried : Int)
    (carriedParcels : List CarriedParcel) (putdownOk : Bool)
    (hc : carried ≤ 0) :
    goDeliverExecute false false mx my mx my moveOutcomes carried
        carriedParcels putdownOk
      = .error "no parcels to deliver" := by
  simp [goDeliverExecute, hc]

/-- Counterexample to claim C5 as stated: at the delivery cell (4,5) with
`carried = 0` and a putdown that would succeed, `GoDeliver.execute` raises
an error instead of returning success. -/
theorem goDeliver_zero_carried_cex :
    goDeliverExecute false false 4 5 4 5 [] 0 [] true
      = Except.error "no parcels to deliver" := by
  rfl

/-- Witness for the amended C5 at a concrete input. -/
theorem goDeliver_zero_carried_errors_witness :
    (0 : Int) ≤ 0
    ∧ goDeliverExecute false false 4 5 4 5 [] 0 [] true
        = .error "no parcels to deliver" :=
  ⟨by decide, goDeliver_zero_carried_errors 4 5 [] 0 [] true (by decide)⟩

/-! ## Claim C6: pickup of an already-gone parcel succeeds idempotently -/

/-- Claim C6: when the target parcel id (truthy and not the `explore`
sentinel) is no longer among the free parcels in belief once the agent is at
the target, `GoPickUp.execute` returns success without invoking
`adapter.pickup`, and the carried parcels are unchanged. -/
theorem goPickUp_missing_parcel_success (mx my : Int) (id : String)
    (moveOutcomes : List MoverOutcome) (beliefParcels : List Parcel)
    (lossForSecond : ℚ) (now : Int)
    (pickupRes carriedParcels : List CarriedParcel)
    (hid1 : id ≠ "") (hid2 : id ≠ "explore")
    (hfree : ∀ p ∈ getFreeParcels beliefParcels lossForSecond now, p.id ≠ id) :
    goPickUpExecute false false mx my mx my id moveOutcomes beliefParcels
        lossForSecond now pickupRes carriedParcels
      = .ok { result := true, pickupInvoked := false,
              carriedParcels := carriedParcels } := by
  have hany : (getFreeParcels beliefParcels lossForSecond now).any
      (fun p => p.id = id) = false := by
    rw [List.any_eq_false]
    intro p hp
    simpa using hfree p hp
  simp [goPickUpExecute, hid1, hid2, hany]

/-- Witness for C6: target parcel `p7` absent from an empty belief; the call
succeeds, does not invoke the pickup action, and leaves the carried list
unchanged. -/
theorem goPickUp_missing_parcel_success_witness :
    "p7" ≠ "explore"
    ∧ goPickUpExecute false false 1 1 1 1 "p7" [] [] 1 0 []
        [⟨"p3", 4⟩]
      = .ok { result := true, pickupInvoked := false,
              carriedParcels := [⟨"p3", 4⟩] } :=
  ⟨by decide,
   goPickUp_missing_parcel_success 1 1 "p7" [] [] 1 0 [] [⟨"p3", 4⟩]
     (by decide) (by decide) (by simp [getFreeParcels, checkExpiredParcels])⟩

/-! ## Grid and breadth-first pathfinder (src/utils/grid.js)

`bfsPath` uses a FIFO queue (`q.shift()` pops the front, `q.push` appends),
a `prev` map recording each discovered cell's parent cell and the direction
taken into it (`prev[start] = null`), and reconstructs the direction list by
walking parents back from the target.  The JS `Map` keyed by the string
`x,y` is embedded as an insertion-ordered association list keyed by the
integer pair itself (the string encoding is injective on integers).  The
unbounded `while (q.length)` loop is embedded with an explicit fuel of
`width*height + 1`: every queue entry corresponds to one `prev` insertion
and cells are inserted at most once, so the loop provably pops fewer times
than the number of grid cells and the fuel never runs out. -/

/-- Grid cell as an integer coordinate pair. -/
abbrev Cell := Int × Int

/-- Movement directions; in Deliveroo `up = y+1`, `down = y-1`,
`right = x+1`, `left = x-1`. -/
inductive Dir where
  | up
  | down
  | left
  | right
deriving DecidableEq, Repr

/-- Coordinate delta of a direction (the `[name, dx, dy]` triples of the
`dirs` table in `bfsPath`). -/
def dirDelta : Dir → Int × Int
  | .up => (0, 1)
  | .down => (0, -1)
  | .left => (-1, 0)
  | .right => (1, 0)

/-- Neighbour order used by the BFS expansion. -/
def dirs : List Dir := [.up, .down, .left, .right]

/-- Apply one movement step to a cell. -/
def step (c : Cell) (d : Dir) : Cell :=
  (c.1 + (dirDelta d).1, c.2 + (dirDelta d).2)

/-- Apply a whole direction sequence from a cell. -/
def applyDirs (c : Cell) (ds : List Dir) : Cell :=
  ds.foldl step c

/-- Grid (src/utils/grid.js): width, height and the accessibility matrix
(here as its lookup function; `isAccessible` guards the bounds before the
matrix is consulted, exactly as the source does). -/
structure Grid where
  width : Int
  height : Int
  accessible : Int → Int → Bool

/-- Grid.isAccessible: out-of-bounds cells are inaccessible. -/
def Grid.isAccessible (g : Grid) (x y : Int) : Bool :=
  if x < 0 ∨ y < 0 ∨ x ≥ g.width ∨ y ≥ g.height then false
  else g.accessible x y

/-- Entry of the BFS `prev` map: `null` for the start cell, otherwise
parent cell and the direction taken from it. -/
abbrev PrevEntry := Option (Cell × Dir)

/-- BFS `prev` map in insertion order. -/
abbrev Prev := List (Cell × PrevEntry)

/-- First entry stored under a cell. -/
def lookupPrev : Prev → Cell → Option PrevEntry
  | [], _ => none
  | (c0, e0) :: rest, c => if c0 = c then some e0 else lookupPrev rest c

/-- JS `prev.has(key)`. -/
def hasKey (prev : Prev) (c : Cell) : Bool :=
  (lookupPrev prev c).isSome

/-- Keys of the `prev` map in insertion order. -/
def keys (prev : Prev) : List Cell :=
  prev.map Prod.fst

/-- Inner for-loop of one BFS iteration: try each direction from the popped
cell `c`; a neighbour that is visitable and not yet in `prev` is recorded
with its parent and appended to the queue. -/
def expand (canVisit : Cell → Bool) (c : Cell) :
    List Dir → List Cell → Prev → List Cell × Prev
  | [], q, prev => (q, prev)
  | d :: ds, q, prev =>
    let n := step c d
    if ¬canVisit n ∨ hasKey prev n then expand canVisit c ds q prev
    else expand canVisit c ds (q ++ [n]) (prev ++ [(n, some (c, d))])

/-- BFS while-loop: pop the queue front, stop on the target, otherwise
expand the neighbours and continue. -/
def bfsLoop (canVisit : Cell → Bool) (target : Cell) :
    ℕ → List Cell → Prev → Prev
  | 0, _, prev => prev
  | _ + 1, [], prev => prev
  | fuel + 1, c :: q, prev =>
    if c = target then prev
    else
      let qp := expand canVisit c dirs q prev
      bfsLoop canVisit target fuel qp.1 qp.2

/-- Path reconstruction of `bfsPath`: follow parents back from the target,
collecting directions, until the `null` entry of the start cell; the
collected list is reversed by the caller.  The walk strictly descends the
insertion order of `prev`, so `prev.length` steps of fuel always suffice. -/
def recWalk (prev : Prev) : ℕ → Cell → List Dir
  | 0, _ => []
  | fuel + 1, c =>
    match lookupPrev prev c with
    | some (some (p, d)) => d :: recWalk prev fuel p
    | _ => []

/-- Grid.bfsPath (src/utils/grid.js): breadth-first search from
`(sx, sy)` to `(tx, ty)`; `none` when either endpoint is inaccessible or
the target was never discovered, otherwise the direction sequence from
start to target. -/
def Grid.bfsPath (g : Grid) (sx sy tx ty : Int) : Option (List Dir) :=
  if ¬g.isAccessible tx ty ∨ ¬g.isAccessible sx sy then none
  else
    let s : Cell := (sx, sy)
    let t : Cell := (tx, ty)
    let prev := bfsLoop (fun c => g.isAccessible c.1 c.2) t
      ((g.width * g.height).toNat + 1) [s] [(s, none)]
    if ¬hasKey prev t then none
    else some ((recWalk prev prev.length t).reverse)

/-- Modelled from the spec: the blocked-cells variant of `Grid.bfsPath`.
The repository calls it — `MoveBfs.execute` (src/bdi/plans/moveBfs.js)
passes a fifth argument holding other agents' occupied cells plus the
partner's claimed destination, and the README declares
`src/utils/grid.js — bfsPath with optional blocked-cells parameter` — but
the copy of grid.js included in the sources predates that parameter, so the
search itself is modelled here from the spec's words: blocked cells are
treated as obstacles, and "the goal cell is always considered traversable
even if nominally occupied". -/
def Grid.bfsPathBlocked (g : Grid) (sx sy tx ty : Int) (blocked : List Cell) :
    Option (List Dir) :=
  if ¬g.isAccessible tx ty ∨ ¬g.isAccessible sx sy then none
  else
    let s : Cell := (sx, sy)
    let t : Cell := (tx, ty)
    let prev := bfsLoop
      (fun c => g.isAccessible c.1 c.2 ∧ (¬blocked.contains c ∨ c = t)) t
      ((g.width * g.height).toNat + 1) [s] [(s, none)]
    if ¬hasKey prev t then none
    else some ((recWalk prev prev.length t).reverse)

theorem lookupPrev_append_left {prev : Prev} {c : Cell} {e : PrevEntry}
    (h : lookupPrev prev c = some e) (ext : Prev) :
    lookupPrev (prev ++ ext) c = some e := by
  induction prev with
  | nil => simp [lookupPrev] at h
  | cons e0 rest ih =>
    obtain ⟨c0, pe0⟩ := e0
    by_cases hc : c0 = c
    · simp only [lookupPrev, if_pos hc] at h
      simp [lookupPrev, hc, h]
    · simp only [lookupPrev, if_neg hc] at h
      simpa [lookupPrev, hc] using ih h

theorem lookupPrev_append_right {prev : Prev} {c : Cell}
    (h : lookupPrev prev c = none) (ext : Prev) :
    lookupPrev (prev ++ ext) c = lookupPrev ext c := by
  induction prev with
  | nil => simp
  | cons e0 rest ih =>
    obtain ⟨c0, pe0⟩ := e0
    by_cases hc : c0 = c
    · simp [lookupPrev, hc] at h
    · simp only [lookupPrev, if_neg hc] at h
      simpa [lookupPrev, hc] using ih h

theorem lookupPrev_isSome_iff_mem_keys (prev : Prev) (c : Cell) :
    (lookupPrev prev c).isSome ↔ c ∈ keys prev := by
  induction prev with
  | nil => simp [lookupPrev, keys]
  | cons e0 rest ih =>
    obtain ⟨c0, pe0⟩ := e0
    by_cases hc : c0 = c
    · simp [lookupPrev, keys, hc]
    · simpa [lookupPrev, keys, hc, Ne.symm hc] using ih

theorem lookupPrev_eq_none_iff (prev : Prev) (c : Cell) :
    lookupPrev prev c = none ↔ c ∉ keys prev := by
  rw [← lookupPrev_isSome_iff_mem_keys]
  cases lookupPrev prev c <;> simp

theorem lookupPrev_of_get? {prev : Prev} (hnd : (keys prev).Nodup)
    {i : ℕ} {c : Cell} {pe : PrevEntry} (h : prev.get? i = some (c, pe)) :
    lookupPrev prev c = some pe := by
  induction prev generalizing i with
  | nil => simp at h
  | cons e0 rest ih =>
    obtain ⟨c0, pe0⟩ := e0
    simp only [keys, List.map_cons, List.nodup_cons] at hnd
    cases i with
    | zero =>
      simp only [List.get?] at h
      obtain ⟨h1, h2⟩ := Prod.mk.injEq .. |>.mp (Option.some.injEq .. |>.mp h)
      simp [lookupPrev, h1, h2]
    | succ i =>
      simp only [List.get?] at h
      have hmem : c ∈ keys rest := by
        have := List.get?_mem h
        exact List.mem_map_of_mem Prod.fst this
      have hne : c0 ≠ c := fun hh => hnd.1 (hh ▸ hmem)
      simpa [lookupPrev, hne] using ih hnd.2 h

theorem get?_of_lookupPrev {prev : Prev} {c : Cell} {pe : PrevEntry}
    (h : lookupPrev prev c = some pe) :
    ∃ i, prev.get? i = some (c, pe) := by
  induction prev with
  | nil => simp [lookupPrev] at h
  | cons e0 rest ih =>
    obtain ⟨c0, pe0⟩ := e0
    by_cases hc : c0 = c
    · simp only [lookupPrev, if_pos hc] at h
      exact ⟨0, by simp [hc, Option.some.injEq .. |>.mp h]⟩
    · simp only [lookupPrev, if_neg hc] at h
      rcases ih h with ⟨i, hi⟩
      exact ⟨i + 1, by simpa using hi⟩

/-- Parent-chain relation on a `prev` map: `Chain prev c n` says the walk
from `c` back over parent entries reaches the `null` root entry after `n`
steps. -/
inductive Chain (prev : Prev) : Cell → ℕ → Prop where
  | zero (c : Cell) : lookupPrev prev c = some none → Chain prev c 0
  | succ (c p : Cell) (d : Dir) (n : ℕ) :
      lookupPrev prev c = some (some (p, d)) → Chain prev p n →
      Chain prev c (n + 1)

theorem chain_unique {prev : Prev} {c : Cell} {n m : ℕ}
    (h1 : Chain prev c n) (h2 : Chain prev c m) : n = m := by
  induction h1 generalizing m with
  | zero c hc =>
    cases h2 with
    | zero _ hc2 => rfl
    | succ _ p d n hc2 hp => rw [hc] at hc2; simp at hc2
  | succ c p d n hc hp ih =>
    cases h2 with
    | zero _ hc2 => rw [hc] at hc2; simp at hc2
    | succ _ p2 d2 n2 hc2 hp2 =>
      rw [hc] at hc2
      obtain ⟨hpe, hde⟩ : p = p2 ∧ d = d2 := by
        have := Option.some.injEq .. |>.mp (Option.some.injEq .. |>.mp hc2)
        exact Prod.mk.injEq .. |>.mp this
      subst hpe
      rw [ih hp2]

theorem chain_append {prev ext : Prev} {c : Cell} {n : ℕ}
    (h : Chain prev c n) : Chain (prev ++ ext) c n := by
  induction h with
  | zero c hc => exact Chain.zero c (lookupPrev_append_left hc ext)
  | succ c p d n hc hp ih => exact Chain.succ c p d n (lookupPrev_append_left hc ext) ih

/-- Static well-formedness of the `prev` map: keys are distinct, the `null`
entry belongs to the start cell only, and every parent entry points at a
visitable cell via a correct step from an earlier entry. -/
def PrevWf (canVisit : Cell → Bool) (start : Cell) (prev : Prev) : Prop :=
  (keys prev).Nodup ∧
  ∀ i c pe, prev.get? i = some (c, pe) →
    (pe = none → c = start) ∧
    ∀ p d, pe = some (p, d) → step p d = c ∧ canVisit c = true ∧
      ∃ j pe2, j < i ∧ prev.get? j = some (p, pe2)

theorem chain_exists {canVisit : Cell → Bool} {start : Cell} {prev : Prev}
    (hwf : PrevWf canVisit start prev) :
    ∀ c ∈ keys prev, ∃ n, Chain prev c n := by
  obtain ⟨hnd, hwf2⟩ := hwf
  suffices hidx : ∀ i c pe, prev.get? i = some (c, pe) → ∃ n, Chain prev c n by
    intro c hc
    rcases List.mem_map.mp hc with ⟨⟨c2, pe⟩, hmem, rfl⟩
    rcases List.get?_of_mem hmem with ⟨i, hi⟩
    exact hidx i c2 pe hi
  intro i
  induction i using Nat.strong_induction_on with
  | _ i ih =>
    intro c pe hi
    rcases pe with _ | ⟨p, d⟩
    · exact ⟨0, Chain.zero c (lookupPrev_of_get? hnd hi)⟩
    · obtain ⟨_, h2⟩ := hwf2 i c _ hi
      obtain ⟨hstep, hcan, j, pe2, hj, hjget⟩ := h2 p d rfl
      rcases ih j hj p pe2 hjget with ⟨n, hn⟩
      exact ⟨n + 1, Chain.succ c p d n (lookupPrev_of_get? hnd hi) hn⟩

theorem chain_le_index {canVisit : Cell → Bool} {start : Cell} {prev : Prev}
    (hwf : PrevWf canVisit start prev) :
    ∀ {n : ℕ} {c : Cell}, Chain prev c n →
      ∀ {i : ℕ} {pe : PrevEntry}, prev.get? i = some (c, pe) → n ≤ i := by
  obtain ⟨hnd, hwf2⟩ := hwf
  intro n c h
  induction h with
  | zero c hc => intro i pe hi; omega
  | succ c p d n hc hp ih =>
    intro i pe hi
    have hpe : pe = some (p, d) := by
      have := lookupPrev_of_get? hnd hi
      rw [hc] at this
      exact (Option.some.injEq .. |>.mp this).symm
    obtain ⟨_, h2⟩ := hwf2 i c pe hi
    obtain ⟨hstep, hcan, j, pe2, hj, hjget⟩ := h2 p d hpe
    have := ih hjget
    omega

theorem chain_lt_length {canVisit : Cell → Bool} {start : Cell} {prev : Prev}
    (hwf : PrevWf canVisit start prev) {c : Cell} {n : ℕ}
    (h : Chain prev c n) : n < prev.length := by
  have hlk : ∃ pe, lookupPrev prev c = some pe := by
    cases h with
    | zero _ hc => exact ⟨none, hc⟩
    | succ _ p d m hc hp => exact ⟨some (p, d), hc⟩
  rcases hlk with ⟨pe, hpe⟩
  rcases get?_of_lookupPrev hpe with ⟨i, hi⟩
  have h1 := chain_le_index hwf h hi
  have h2 : i < prev.length := List.get?_eq_some.mp hi |>.1
  omega



theorem applyDirs_append (c : Cell) (l1 l2 : List Dir) :
    applyDirs c (l1 ++ l2) = applyDirs (applyDirs c l1) l2 := by
  simp [applyDirs, List.foldl_append]

theorem recWalk_of_chain {canVisit : Cell → Bool} {start : Cell} {prev : Prev}
    (hwf : PrevWf canVisit start prev) :
    ∀ {n : ℕ} {c : Cell}, Chain prev c n → ∀ fuel, n ≤ fuel →
      (recWalk prev fuel c).length = n ∧
      applyDirs start ((recWalk prev fuel c).reverse) = c ∧
      ∀ i, i < n →
        canVisit (applyDirs start ((recWalk prev fuel c).reverse.take (i + 1)))
          = true := by
  intro n c h
  induction h with
  | zero c hc =>
    have hcs : c = start := by
      rcases get?_of_lookupPrev hc with ⟨i, hi⟩
      exact (hwf.2 i c none hi).1 rfl
    intro fuel _
    have hrw : recWalk prev fuel c = [] := by
      cases fuel with
      | zero => rfl
      | succ f => simp [recWalk, hc]
    refine ⟨by rw [hrw]; rfl, ?_, by intro i hi; exact absurd hi (by omega)⟩
    rw [hrw]
    simp [applyDirs, hcs]
  | succ c p d n hc hp ih =>
    intro fuel hfuel
    cases fuel with
    | zero => omega
    | succ f =>
      have hf : n ≤ f := by omega
      obtain ⟨ihlen, ihapp, ihpre⟩ := ih f hf
      have hrw : recWalk prev (f + 1) c = d :: recWalk prev f p := by
        simp [recWalk, hc]
      have hstep : step p d = c ∧ canVisit c = true := by
        rcases get?_of_lookupPrev hc with ⟨i, hi⟩
        obtain ⟨_, h2⟩ := hwf.2 i c _ hi
        obtain ⟨h3, h4, _⟩ := h2 p d rfl
        exact ⟨h3, h4⟩
      rw [hrw]
      simp only [List.reverse_cons, List.length_cons]
      refine ⟨by omega, ?_, ?_⟩
      · rw [applyDirs_append, ihapp]
        simpa [applyDirs] using hstep.1
      · intro i hi
        by_cases hin : i < n
        · rw [List.take_append_of_le_length (by rw [List.length_reverse, ihlen]; omega)]
          exact ihpre i hin
        · have hieq : i = n := by omega
          subst hieq
          rw [List.take_of_length_le (by simp [ihlen])]
          rw [applyDirs_append, ihapp]
          have happ : applyDirs p [d] = c := by simpa [applyDirs] using hstep.1
          rw [happ]
          exact hstep.2
    


theorem keys_append (prev ext : Prev) : keys (prev ++ ext) = keys prev ++ keys ext := by
  simp [keys]

theorem prevWf_append_new {canVisit : Cell → Bool} {start : Cell} {prev : Prev}
    (hwf : PrevWf canVisit start prev) {n c0 : Cell} {d : Dir}
    (hstep : step c0 d = n) (hcan : canVisit n = true)
    (hnew : n ∉ keys prev) (hc0 : c0 ∈ keys prev) :
    PrevWf canVisit start (prev ++ [(n, some (c0, d))]) := by
  obtain ⟨hnd, hwf2⟩ := hwf
  constructor
  · rw [keys_append]
    simp only [keys, List.map_cons, List.map_nil]
    exact List.nodup_append.mpr ⟨hnd, List.nodup_singleton n,
      by intro a ha hb; simp at hb; subst hb; exact hnew ha⟩
  · intro i c pe hget
    by_cases hi : i < prev.length
    · rw [List.get?_append hi] at hget
      obtain ⟨h1, h2⟩ := hwf2 i c pe hget
      refine ⟨h1, fun p d2 hpe => ?_⟩
      obtain ⟨h3, h4, j, pe2, hj, hjget⟩ := h2 p d2 hpe
      exact ⟨h3, h4, j, pe2, hj, by rw [List.get?_append (by omega)]; exact hjget⟩
    · have hil : i = prev.length := by
        by_contra hne
        have : prev.length + 1 ≤ i := by omega
        rw [List.get?_eq_none.mpr (by simp; omega)] at hget
        exact Option.noConfusion hget
      subst hil
      rw [List.get?_concat_length] at hget
      obtain ⟨hc, hpe⟩ := Prod.mk.injEq .. |>.mp (Option.some.injEq .. |>.mp hget)
      subst hc
      refine ⟨by intro h0; rw [← hpe] at h0; exact Option.noConfusion h0,
        fun p d2 hpe2 => ?_⟩
      rw [← hpe] at hpe2
      obtain ⟨hp, hd⟩ : c0 = p ∧ d = d2 := by
        have := Option.some.injEq .. |>.mp hpe2
        exact Prod.mk.injEq .. |>.mp this
      subst hp
      subst hd
      refine ⟨hstep, hcan, ?_⟩
      rcases List.mem_map.mp hc0 with ⟨⟨c2, pe3⟩, hmem, hfst⟩
      rcases List.get?_of_mem hmem with ⟨j, hjget⟩
      have hjlt : j < prev.length := List.get?_eq_some.mp hjget |>.1
      refine ⟨j, pe3, hjlt, ?_⟩
      rw [List.get?_append hjlt, hjget]
      simp at hfst
      rw [hfst]

theorem expand_wf (canVisit : Cell → Bool) (start c0 : Cell) :
    ∀ (ds : List Dir) (q : List Cell) (prev : Prev),
      PrevWf canVisit start prev → c0 ∈ keys prev → (∀ c ∈ q, c ∈ keys prev) →
      ∃ ext, (expand canVisit c0 ds q prev).2 = prev ++ ext ∧
        PrevWf canVisit start (expand canVisit c0 ds q prev).2 ∧
        ∀ c ∈ (expand canVisit c0 ds q prev).1, c ∈ keys (expand canVisit c0 ds q prev).2 := by
  intro ds
  induction ds with
  | nil =>
    intro q prev hwf hc0 hq
    exact ⟨[], by simp [expand], by simpa [expand] using hwf, by simpa [expand] using hq⟩
  | cons d ds ih =>
    intro q prev hwf hc0 hq
    by_cases hskip : ¬canVisit (step c0 d) ∨ hasKey prev (step c0 d)
    · simp only [expand, if_pos hskip]
      exact ih q prev hwf hc0 hq
    · simp only [expand, if_neg hskip]
      push_neg at hskip
      obtain ⟨hcan, hnothas⟩ := hskip
      have hcan2 : canVisit (step c0 d) = true := hcan
      have hnew : step c0 d ∉ keys prev := by
        rw [← lookupPrev_isSome_iff_mem_keys]
        simpa [hasKey] using hnothas
      have hwf2 := prevWf_append_new hwf rfl hcan2 hnew hc0
      have hkeys2 : keys (prev ++ [(step c0 d, some (c0, d))])
          = keys prev ++ [step c0 d] := by simp [keys_append, keys]
      have hc02 : c0 ∈ keys (prev ++ [(step c0 d, some (c0, d))]) := by
        rw [hkeys2]; exact List.mem_append_left _ hc0
      have hq2 : ∀ c ∈ q ++ [step c0 d],
          c ∈ keys (prev ++ [(step c0 d, some (c0, d))]) := by
        intro c hcm
        rw [hkeys2]
        rcases List.mem_append.mp hcm with hcm | hcm
        · exact List.mem_append_left _ (hq c hcm)
        · simp at hcm
          subst hcm
          exact List.mem_append_right _ (by simp)
      rcases ih (q ++ [step c0 d]) (prev ++ [(step c0 d, some (c0, d))])
        hwf2 hc02 hq2 with ⟨ext, hext, hwf3, hq3⟩
      exact ⟨[(step c0 d, some (c0, d))] ++ ext, by
        rw [hext]
        simp, hwf3, hq3⟩

theorem bfsLoop_wf (canVisit : Cell → Bool) (start target : Cell) :
    ∀ (fuel : ℕ) (q : List Cell) (prev : Prev),
      PrevWf canVisit start prev → (∀ c ∈ q, c ∈ keys prev) →
      ∃ ext, bfsLoop canVisit target fuel q prev = prev ++ ext ∧
        PrevWf canVisit start (bfsLoop canVisit target fuel q prev) := by
  intro fuel
  induction fuel with
  | zero =>
    intro q prev hwf hq
    exact ⟨[], by simp [bfsLoop], by simpa [bfsLoop] using hwf⟩
  | succ fuel ih =>
    intro q prev hwf hq
    cases q with
    | nil => exact ⟨[], by simp [bfsLoop], by simpa [bfsLoop] using hwf⟩
    | cons c q =>
      by_cases hct : c = target
      · exact ⟨[], by simp [bfsLoop, hct], by simpa [bfsLoop, hct] using hwf⟩
      · rw [bfsLoop, if_neg hct]
        have hc0 : c ∈ keys prev := hq c (by simp)
        have hqr : ∀ c2 ∈ q, c2 ∈ keys prev := fun c2 h2 => hq c2 (by simp [h2])
        rcases expand_wf canVisit start c dirs q prev hwf hc0 hqr with
          ⟨ext1, hext1, hwf1, hq1⟩
        rcases ih (expand canVisit c dirs q prev).1 (expand canVisit c dirs q prev).2
          hwf1 hq1 with ⟨ext2, hext2, hwf2⟩
        exact ⟨ext1 ++ ext2, by rw [hext2, hext1]; simp, hwf2⟩



theorem expand_congr {cv1 cv2 : Cell → Bool} (h : ∀ c, cv1 c = cv2 c) (c0 : Cell) :
    ∀ (ds : List Dir) (q : List Cell) (prev : Prev),
      expand cv1 c0 ds q prev = expand cv2 c0 ds q prev := by
  intro ds
  induction ds with
  | nil => intro q prev; rfl
  | cons d ds ih =>
    intro q prev
    simp only [expand, h (step c0 d)]
    by_cases hc : ¬cv2 (step c0 d) ∨ hasKey prev (step c0 d)
    · rw [if_pos hc, if_pos hc, ih]
    · rw [if_neg hc, if_neg hc, ih]

theorem bfsLoop_congr {cv1 cv2 : Cell → Bool} (h : ∀ c, cv1 c = cv2 c)
    (target : Cell) :
    ∀ (fuel : ℕ) (q : List Cell) (prev : Prev),
      bfsLoop cv1 target fuel q prev = bfsLoop cv2 target fuel q prev := by
  intro fuel
  induction fuel with
  | zero => intro q prev; rfl
  | succ fuel ih =>
    intro q prev
    cases q with
    | nil => rfl
    | cons c q =>
      by_cases hct : c = target
      · simp [bfsLoop, hct]
      · simp only [bfsLoop, if_neg hct]
        rw [expand_congr h, ih]

/-- Claim C4: over the spec-modelled blocked-cells search, (i) a returned
direction sequence never passes through a blocked cell other than the goal
cell (and it ends on the goal), and (ii) the goal being in the blocked set
never by itself causes a `no path` result: removing the goal from the
blocked set never changes the outcome, since the goal is always treated as
traversable. -/
theorem bfsPathBlocked_spec (g : Grid) (sx sy tx ty : Int)
    (blocked : List Cell) :
    (∀ p, g.bfsPathBlocked sx sy tx ty blocked = some p →
      applyDirs (sx, sy) p = (tx, ty) ∧
      ∀ i, i < p.length → applyDirs (sx, sy) (p.take (i + 1)) ∈ blocked →
        applyDirs (sx, sy) (p.take (i + 1)) = (tx, ty))
    ∧ g.bfsPathBlocked sx sy tx ty blocked
      = g.bfsPathBlocked sx sy tx ty
          (blocked.filter (fun c => ¬(c = (tx, ty)))) := by
  constructor
  · intro p hp
    rw [Grid.bfsPathBlocked] at hp
    by_cases hacc : ¬g.isAccessible tx ty ∨ ¬g.isAccessible sx sy
    · rw [if_pos hacc] at hp
      exact Option.noConfusion hp
    · rw [if_neg hacc] at hp
      set canB : Cell → Bool :=
        fun c => g.isAccessible c.1 c.2 ∧ (¬blocked.contains c ∨ c = (tx, ty))
        with hcanB
      set prevF : Prev := bfsLoop canB (tx, ty)
        ((g.width * g.height).toNat + 1) [(sx, sy)] [((sx, sy), none)]
        with hprevF
      by_cases hhas : ¬hasKey prevF (tx, ty)
      · rw [if_pos hhas] at hp
        exact Option.noConfusion hp
      · rw [if_neg hhas] at hp
        have hp2 : p = (recWalk prevF prevF.length (tx, ty)).reverse :=
          (Option.some.injEq .. |>.mp hp).symm
        have hwf0 : PrevWf canB (sx, sy) [((sx, sy), none)] := by
          constructor
          · simp [keys]
          · intro i c pe hget
            cases i with
            | zero =>
              obtain ⟨h1, h2⟩ := Prod.mk.injEq .. |>.mp
                (Option.some.injEq .. |>.mp hget)
              exact ⟨fun _ => h1.symm, fun p2 d2 hpe => by
                rw [← h2] at hpe
                exact Option.noConfusion hpe⟩
            | succ i => simp at hget
        rcases bfsLoop_wf canB (sx, sy) (tx, ty)
            ((g.width * g.height).toNat + 1) [(sx, sy)] [((sx, sy), none)]
            hwf0 (by simp [keys]) with ⟨ext, hext, hwfF⟩
        have hmem : (tx, ty) ∈ keys prevF := by
          rw [← lookupPrev_isSome_iff_mem_keys, Option.isSome_iff_ne_none]
          simpa [hasKey] using hhas
        rcases chain_exists hwfF (tx, ty) hmem with ⟨n, hchain⟩
        have hn : n ≤ prevF.length := le_of_lt (chain_lt_length hwfF hchain)
        obtain ⟨hlen, happ, hpre⟩ := recWalk_of_chain hwfF hchain prevF.length hn
        constructor
        · rw [hp2]; exact happ
        · intro i hi hbl
          have hi2 : i < n := by
            rw [hp2, List.length_reverse, hlen] at hi
            exact hi
          have hcv := hpre i hi2
          rw [← hp2] at hcv
          have hprop := of_decide_eq_true hcv
          rcases hprop.2 with h2 | h2
          · exact absurd (List.elem_iff.mpr hbl) (by simpa using h2)
          · exact h2
  · rw [Grid.bfsPathBlocked, Grid.bfsPathBlocked]
    by_cases hacc : ¬g.isAccessible tx ty ∨ ¬g.isAccessible sx sy
    · rw [if_pos hacc, if_pos hacc]
    · rw [if_neg hacc, if_neg hacc]
      have hcv : ∀ c : Cell,
          (decide (g.isAccessible c.1 c.2 ∧ (¬blocked.contains c ∨ c = (tx, ty))))
            = (decide (g.isAccessible c.1 c.2 ∧
                (¬(blocked.filter (fun c2 => ¬(c2 = (tx, ty)))).contains c
                  ∨ c = (tx, ty)))) := by
        intro c
        apply decide_eq_decide.mpr
        constructor
        · rintro ⟨h1, h2⟩
          refine ⟨h1, ?_⟩
          rcases h2 with h2 | h2
          · left
            intro hcon
            have hm1 := List.elem_iff.mp hcon
            have hm2 := List.mem_of_mem_filter hm1
            exact h2 (List.elem_iff.mpr hm2)
          · right; exact h2
        · rintro ⟨h1, h2⟩
          refine ⟨h1, ?_⟩
          by_cases hct : c = (tx, ty)
          · right; exact hct
          · rcases h2 with h2 | h2
            · left
              intro hcon
              apply h2
              apply List.elem_iff.mpr
              apply List.mem_filter.mpr
              exact ⟨List.elem_iff.mp hcon, by simpa using hct⟩
            · exact absurd h2 hct
      dsimp only
      rw [bfsLoop_congr hcv]



theorem bfsPathBlocked_spec_witness :
    Grid.bfsPathBlocked ⟨3, 3, fun _ _ => true⟩ 0 0 2 0 [(1, 0)]
      = some [Dir.up, Dir.right, Dir.right, Dir.down]
    ∧ applyDirs (0, 0) [Dir.up, Dir.right, Dir.right, Dir.down] = (2, 0)
    ∧ ∀ i, i < 4 →
        applyDirs (0, 0) ([Dir.up, Dir.right, Dir.right, Dir.down].take (i + 1))
            ∈ [((1 : Int), (0 : Int))] →
        applyDirs (0, 0) ([Dir.up, Dir.right, Dir.right, Dir.down].take (i + 1))
          = (2, 0) := by
  have h := (bfsPathBlocked_spec ⟨3, 3, fun _ _ => true⟩ 0 0 2 0 [(1, 0)]).1
    [Dir.up, Dir.right, Dir.right, Dir.down] (by decide)
  exact ⟨by decide, h.1, fun i hi => h.2 i (by simpa using hi)⟩

/-- Depth comparison of two cells in a `prev` map, phrased over the `Chain`
relation. -/
def DepthLE (prev : Prev) (c c2 : Cell) : Prop :=
  ∀ n n2, Chain prev c n → Chain prev c2 n2 → n ≤ n2

/-- Final-state completeness of a finished BFS run: every discovered cell
either has all its visitable neighbours discovered one level deeper at most,
or is superseded by a target that is at most as deep. -/
def Fcomplete (canVisit : Cell → Bool) (target : Cell) (prev : Prev) : Prop :=
  ∀ c ∈ keys prev,
    (∀ d, canVisit (step c d) = true → step c d ∈ keys prev ∧
        ∀ n m, Chain prev c n → Chain prev (step c d) m → m ≤ n + 1)
    ∨ (target ∈ keys prev ∧
        ∀ n m, Chain prev c n → Chain prev target m → m ≤ n)

/-- Invariant of the BFS while-loop. -/
structure LoopInv (canVisit : Cell → Bool) (start : Cell) (S : Finset Cell)
    (q : List Cell) (prev : Prev) : Prop where
  wf : PrevWf canVisit start prev
  startm : lookupPrev prev start = some none
  keysS : ∀ c ∈ keys prev, c ∈ S
  qsub : ∀ c ∈ q, c ∈ keys prev
  qnodup : q.Nodup
  mono : q.Pairwise (DepthLE prev)
  window : ∀ h2 ci nh ni, q.head? = some h2 → ci ∈ q → Chain prev h2 nh →
      Chain prev ci ni → ni ≤ nh + 1
  proc : ∀ c ∈ keys prev, c ∉ q → ∀ cq ∈ q, DepthLE prev c cq
  covered : ∀ c ∈ keys prev, c ∉ q → ∀ d, canVisit (step c d) = true →
      step c d ∈ keys prev ∧
      ∀ n m, Chain prev c n → Chain prev (step c d) m → m ≤ n + 1

theorem depthLE_append {canVisit : Cell → Bool} {start : Cell}
    {prev ext : Prev} (hwf : PrevWf canVisit start prev)
    {c c2 : Cell} (hc : c ∈ keys prev) (hc2 : c2 ∈ keys prev)
    (h : DepthLE prev c c2) : DepthLE (prev ++ ext) c c2 := by
  intro n n2 hn hn2
  rcases chain_exists hwf c hc with ⟨m, hm⟩
  rcases chain_exists hwf c2 hc2 with ⟨m2, hm2⟩
  have e1 : n = m := chain_unique hn (chain_append hm)
  have e2 : n2 = m2 := chain_unique hn2 (chain_append hm2)
  rw [e1, e2]
  exact h m m2 hm hm2

/-- One full neighbour expansion preserves the `prev` structure: the new
entries are fresh visitable cells one level below the popped cell, appended
to both the map and the queue in matching order. -/
theorem expand_full (canVisit : Cell → Bool) (start c0 : Cell) (n0 : ℕ) :
    ∀ (ds : List Dir) (q : List Cell) (prev : Prev),
      PrevWf canVisit start prev →
      c0 ∈ keys prev →
      Chain prev c0 n0 →
      (∀ c ∈ q, c ∈ keys prev) →
      ∃ ext,
        (expand canVisit c0 ds q prev).2 = prev ++ ext ∧
        (expand canVisit c0 ds q prev).1 = q ++ keys ext ∧
        PrevWf canVisit start (prev ++ ext) ∧
        (keys ext).Nodup ∧
        (∀ c ∈ keys ext, Chain (prev ++ ext) c (n0 + 1) ∧ canVisit c = true ∧
          c ∉ keys prev) ∧
        (∀ d ∈ ds, canVisit (step c0 d) = true →
          step c0 d ∈ keys prev ∨ step c0 d ∈ keys ext) := by
  intro ds
  induction ds with
  | nil =>
    intro q prev hwf hc0 hch hq
    exact ⟨[], by simp [expand], by simp [expand, keys], by simpa using hwf,
      by simp [keys], by simp [keys], by simp⟩
  | cons d ds ih =>
    intro q prev hwf hc0 hch hq
    by_cases hskip : ¬canVisit (step c0 d) ∨ hasKey prev (step c0 d)
    · simp only [expand, if_pos hskip]
      rcases ih q prev hwf hc0 hch hq with
        ⟨ext, he1, he2, he3, he4, he5, he6⟩
      refine ⟨ext, he1, he2, he3, he4, he5, ?_⟩
      intro d2 hd2 hcan2
      rcases List.mem_cons.mp hd2 with rfl | hd2
      · rcases hskip with hs | hs
        · exact absurd hcan2 (by simpa using hs)
        · left
          rw [← lookupPrev_isSome_iff_mem_keys]
          simpa [hasKey] using hs
      · exact he6 d2 hd2 hcan2
    · simp only [expand, if_neg hskip]
      push_neg at hskip
      obtain ⟨hcan, hnothas⟩ := hskip
      have hnew : step c0 d ∉ keys prev := by
        rw [← lookupPrev_isSome_iff_mem_keys]
        simpa [hasKey] using hnothas
      have hlknone : lookupPrev prev (step c0 d) = none :=
        (lookupPrev_eq_none_iff ..).mpr hnew
      have hwfA := prevWf_append_new hwf rfl hcan hnew hc0
      have hkeysA : keys (prev ++ [(step c0 d, some (c0, d))])
          = keys prev ++ [step c0 d] := by simp [keys_append, keys]
      have hc0A : c0 ∈ keys (prev ++ [(step c0 d, some (c0, d))]) := by
        rw [hkeysA]; exact List.mem_append_left _ hc0
      have hchA : Chain (prev ++ [(step c0 d, some (c0, d))]) c0 n0 :=
        chain_append hch
      have hlkA : lookupPrev (prev ++ [(step c0 d, some (c0, d))]) (step c0 d)
          = some (some (c0, d)) := by
        rw [lookupPrev_append_right hlknone]
        simp [lookupPrev]
      have hchNA : Chain (prev ++ [(step c0 d, some (c0, d))]) (step c0 d) (n0 + 1) :=
        Chain.succ _ c0 d n0 hlkA hchA
      have hqA : ∀ c ∈ q ++ [step c0 d],
          c ∈ keys (prev ++ [(step c0 d, some (c0, d))]) := by
        intro c hcm
        rw [hkeysA]
        rcases List.mem_append.mp hcm with hcm | hcm
        · exact List.mem_append_left _ (hq c hcm)
        · exact List.mem_append_right _ hcm
      rcases ih (q ++ [step c0 d]) (prev ++ [(step c0 d, some (c0, d))])
        hwfA hc0A hchA hqA with ⟨ext, he1, he2, he3, he4, he5, he6⟩
      have hprevEq : prev ++ [(step c0 d, some (c0, d))] ++ ext
          = prev ++ ([(step c0 d, some (c0, d))] ++ ext) := by simp
      refine ⟨[(step c0 d, some (c0, d))] ++ ext, ?_, ?_, ?_, ?_, ?_, ?_⟩
      · rw [he1, hprevEq]
      · rw [he2]
        simp [keys]
      · rw [← hprevEq]; exact he3
      · have hkext : keys ([(step c0 d, some (c0, d))] ++ ext)
            = step c0 d :: keys ext := by simp [keys]
        rw [hkext]
        refine List.nodup_cons.mpr ⟨fun hmem => ?_, he4⟩
        exact (he5 _ hmem).2.2 (by rw [hkeysA]; simp)
      · intro c hcm
        have hkext : keys ([(step c0 d, some (c0, d))] ++ ext)
            = step c0 d :: keys ext := by simp [keys]
        rw [hkext] at hcm
        rw [← hprevEq]
        rcases List.mem_cons.mp hcm with rfl | hcm
        · exact ⟨chain_append hchNA, hcan, hnew⟩
        · obtain ⟨hch2, hcan2, hnot2⟩ := he5 c hcm
          refine ⟨hch2, hcan2, fun hmem => ?_⟩
          exact hnot2 (by rw [hkeysA]; exact List.mem_append_left _ hmem)
      · intro d2 hd2 hcan2
        have hkext : keys ([(step c0 d, some (c0, d))] ++ ext)
            = step c0 d :: keys ext := by simp [keys]
        rcases List.mem_cons.mp hd2 with rfl | hd2
        · right
          rw [hkext]
          exact List.mem_cons_self _ _
        · rcases he6 d2 hd2 hcan2 with hm | hm
          · rw [hkeysA] at hm
            rcases List.mem_append.mp hm with hm | hm
            · exact Or.inl hm
            · right
              rw [hkext]
              simp at hm
              simp [hm]
          · right
            rw [hkext]
            exact List.mem_cons_of_mem _ hm



theorem mem_dirs (d : Dir) : d ∈ dirs := by cases d <;> simp [dirs]

theorem expand_preserves (canVisit : Cell → Bool) (start : Cell) (S : Finset Cell)
    (hS : ∀ c, canVisit c = true → c ∈ S)
    (c0 : Cell) (rest : List Cell) (prev : Prev)
    (hinv : LoopInv canVisit start S (c0 :: rest) prev) :
    ∃ ext,
      (expand canVisit c0 dirs rest prev).2 = prev ++ ext ∧
      (expand canVisit c0 dirs rest prev).1 = rest ++ keys ext ∧
      LoopInv canVisit start S (rest ++ keys ext) (prev ++ ext) := by
  have hc0k : c0 ∈ keys prev := hinv.qsub c0 (List.mem_cons_self _ _)
  rcases chain_exists hinv.wf c0 hc0k with ⟨n0, hch0⟩
  have hrestk : ∀ c ∈ rest, c ∈ keys prev := fun c hc =>
    hinv.qsub c (List.mem_cons_of_mem _ hc)
  rcases expand_full canVisit start c0 n0 dirs rest prev hinv.wf hc0k hch0 hrestk
    with ⟨ext, he1, he2, hwf2, hnde, hext, hnb⟩
  have hkeys2 : keys (prev ++ ext) = keys prev ++ keys ext := keys_append prev ext
  -- depth of old cells is unchanged in the extended map
  have hold : ∀ c ∈ keys prev, ∀ n, Chain (prev ++ ext) c n → Chain prev c n := by
    intro c hc n hn
    rcases chain_exists hinv.wf c hc with ⟨m, hm⟩
    have := chain_unique hn (chain_append hm)
    rw [this]
    exact hm
  have hC0notrest : c0 ∉ rest := (List.nodup_cons.mp hinv.qnodup).1
  have hC0notext : c0 ∉ keys ext := fun hm => (hext c0 hm).2.2 hc0k
  -- every queue cell of the old queue sits within one level of the popped cell
  have hwin : ∀ ci ∈ (c0 :: rest), ∀ ni, Chain prev ci ni → ni ≤ n0 + 1 := by
    intro ci hci ni hni
    exact hinv.window c0 ci n0 ni rfl hci hch0 hni
  have hmono0 := List.pairwise_cons.mp hinv.mono
  -- head dominance: the popped cell is at the shallowest queue level
  have hhead : ∀ b ∈ rest, DepthLE prev c0 b := hmono0.1
  constructor
  case w => exact ext
  refine ⟨he1, he2, ?_⟩
  constructor
  · exact hwf2
  · exact lookupPrev_append_left hinv.startm ext
  · intro c hc
    rw [hkeys2] at hc
    rcases List.mem_append.mp hc with hc | hc
    · exact hinv.keysS c hc
    · exact hS c (hext c hc).2.1
  · intro c hc
    rw [hkeys2]
    rcases List.mem_append.mp hc with hc | hc
    · exact List.mem_append_left _ (hrestk c hc)
    · exact List.mem_append_right _ hc
  · refine List.nodup_append.mpr ⟨(List.nodup_cons.mp hinv.qnodup).2, hnde, ?_⟩
    intro a ha hb
    exact (hext a hb).2.2 (hrestk a ha)
  · refine List.pairwise_append.mpr ⟨?_, ?_, ?_⟩
    · refine List.Pairwise.imp_of_mem ?_ hmono0.2
      intro a b ha hb hr
      exact depthLE_append hinv.wf (hrestk a ha) (hrestk b hb) hr
    · refine List.pairwise_of_forall_mem_list ?_
      intro a ha b hb n n2 hn hn2
      have e1 := chain_unique hn (hext a ha).1
      have e2 := chain_unique hn2 (hext b hb).1
      omega
    · intro a ha b hb n n2 hn hn2
      have ha2 : Chain prev a n := hold a (hrestk a ha) n hn
      have e2 := chain_unique hn2 (hext b hb).1
      have := hwin a (List.mem_cons_of_mem _ ha) n ha2
      omega
  · intro h2 ci nh ni hh hci hch hci2
    cases rest with
    | nil =>
      simp only [List.nil_append] at hh hci
      have hh2 : h2 ∈ keys ext := List.mem_of_mem_head? (Option.mem_def.mpr hh)
      have e1 := chain_unique hch (hext h2 hh2).1
      have e2 := chain_unique hci2 (hext ci hci).1
      omega
    | cons r rest2 =>
      have hh2 : r = h2 := by simpa using hh
      subst hh2
      have hrk : r ∈ keys prev := hrestk r (by simp)
      have hchp : Chain prev r nh := hold r hrk nh hch
      have hn0le : n0 ≤ nh := hhead r (by simp) n0 nh hch0 hchp
      rcases List.mem_append.mp hci with hcir | hcie
      · have hcp : Chain prev ci ni := hold ci (hrestk ci hcir) ni hci2
        have := hwin ci (List.mem_cons_of_mem _ hcir) ni hcp
        omega
      · have e2 := chain_unique hci2 (hext ci hcie).1
        omega
  · intro c hc hcq cq hcq2 n m hn hm
    rw [hkeys2] at hc
    have hcold : c ∈ keys prev := by
      rcases List.mem_append.mp hc with hc | hc
      · exact hc
      · exact absurd (List.mem_append_right rest hc) hcq
    have hnp : Chain prev c n := hold c hcold n hn
    by_cases hcc0 : c = c0
    · subst hcc0
      have e0 := chain_unique hnp hch0
      rcases List.mem_append.mp hcq2 with hq | hq
      · have hmp : Chain prev cq m := hold cq (hrestk cq hq) m hm
        have := hhead cq hq n0 m hch0 hmp
        omega
      · have e2 := chain_unique hm (hext cq hq).1
        omega

    · have hcnotq : c ∉ c0 :: rest := by
        intro hmem
        rcases List.mem_cons.mp hmem with h | h
        · exact hcc0 h
        · exact hcq (List.mem_append_left _ h)
      rcases List.mem_append.mp hcq2 with hq | hq
      · have hmp : Chain prev cq m := hold cq (hrestk cq hq) m hm
        exact hinv.proc c hcold hcnotq cq (List.mem_cons_of_mem _ hq) n m hnp hmp
      · have e2 := chain_unique hm (hext cq hq).1
        have := hinv.proc c hcold hcnotq c0 (List.mem_cons_self _ _) n n0 hnp hch0
        omega
  · intro c hc hcq d hcan
    rw [hkeys2] at hc
    have hcold : c ∈ keys prev := by
      rcases List.mem_append.mp hc with hc | hc
      · exact hc
      · exact absurd (List.mem_append_right rest hc) hcq
    by_cases hcc0 : c = c0
    · subst hcc0
      rcases hnb d (mem_dirs d) hcan with hm | hm
      · refine ⟨by rw [hkeys2]; exact List.mem_append_left _ hm, ?_⟩
        intro n m hn hm2
        have hnp : Chain prev c n := hold c hcold n hn
        have e0 := chain_unique hnp hch0
        have hmp : Chain prev (step c d) m := hold _ hm m hm2
        by_cases hq : step c d ∈ c :: rest
        · have := hwin _ hq m hmp
          omega
        · have := hinv.proc (step c d) hm hq c (List.mem_cons_self _ _) m n0 hmp hch0
          omega
      · refine ⟨by rw [hkeys2]; exact List.mem_append_right _ hm, ?_⟩
        intro n m hn hm2
        have hnp : Chain prev c n := hold c hcold n hn
        have e0 := chain_unique hnp hch0
        have e2 := chain_unique hm2 (hext _ hm).1
        omega
    · have hcnotq : c ∉ c0 :: rest := by
        intro hmem
        rcases List.mem_cons.mp hmem with h | h
        · exact hcc0 h
        · exact hcq (List.mem_append_left _ h)
      obtain ⟨hmem, hbound⟩ := hinv.covered c hcold hcnotq d hcan
      refine ⟨by rw [hkeys2]; exact List.mem_append_left _ hmem, ?_⟩
      intro n m hn hm
      exact hbound n m (hold c hcold n hn) (hold _ hmem m hm)



theorem keys_length_le_card {canVisit : Cell → Bool} {start : Cell}
    {S : Finset Cell} {q : List Cell} {prev : Prev}
    (hinv : LoopInv canVisit start S q prev) :
    (keys prev).length ≤ S.card := by
  rw [← List.toFinset_card_of_nodup hinv.wf.1]
  exact Finset.card_le_card fun x hx => hinv.keysS x (List.mem_toFinset.mp hx)

theorem bfsLoop_complete (canVisit : Cell → Bool) (start target : Cell)
    (S : Finset Cell) (hS : ∀ c, canVisit c = true → c ∈ S) :
    ∀ (fuel : ℕ) (q : List Cell) (prev : Prev),
      LoopInv canVisit start S q prev →
      q.length + (S.card + 1 - (keys prev).length) ≤ fuel →
      ∃ ext, bfsLoop canVisit target fuel q prev = prev ++ ext ∧
        PrevWf canVisit start (bfsLoop canVisit target fuel q prev) ∧
        lookupPrev (bfsLoop canVisit target fuel q prev) start = some none ∧
        Fcomplete canVisit target (bfsLoop canVisit target fuel q prev) := by
  intro fuel
  induction fuel with
  | zero =>
    intro q prev hinv hfuel
    have := keys_length_le_card hinv
    omega
  | succ fuel ih =>
    intro q prev hinv hfuel
    cases q with
    | nil =>
      have hres : bfsLoop canVisit target (fuel + 1) [] prev = prev := rfl
      refine ⟨[], by rw [hres]; simp, by rw [hres]; exact hinv.wf,
        by rw [hres]; exact hinv.startm, ?_⟩
      rw [hres]
      intro c hc
      left
      exact hinv.covered c hc (by simp)
    | cons c0 rest =>
      by_cases hct : c0 = target
      · have hres : bfsLoop canVisit target (fuel + 1) (c0 :: rest) prev = prev := by
          rw [bfsLoop, if_pos hct]
        refine ⟨[], by rw [hres]; simp, by rw [hres]; exact hinv.wf,
          by rw [hres]; exact hinv.startm, ?_⟩
        rw [hres]
        intro c hc
        by_cases hcq : c ∈ c0 :: rest
        · right
          refine ⟨hct ▸ hinv.qsub c0 (List.mem_cons_self _ _), ?_⟩
          intro n m hn hm
          rw [← hct] at hm
          rcases List.mem_cons.mp hcq with rfl | hcr
          · have := chain_unique hm hn
            omega
          · exact (List.pairwise_cons.mp hinv.mono).1 c hcr m n hm hn
        · left
          exact hinv.covered c hc hcq
      · rw [bfsLoop, if_neg hct]
        dsimp only
        rcases expand_preserves canVisit start S hS c0 rest prev hinv with
          ⟨ext1, he1, he2, hinv2⟩
        have hlen2 : (keys (prev ++ ext1)).length
            = (keys prev).length + (keys ext1).length := by simp [keys]
        have hcard2 := keys_length_le_card hinv2
        have hfuel2 : (rest ++ keys ext1).length
            + (S.card + 1 - (keys (prev ++ ext1)).length) ≤ fuel := by
          rw [List.length_append, hlen2]
          rw [hlen2] at hcard2
          simp only [List.length_cons] at hfuel
          omega
        rcases ih (rest ++ keys ext1) (prev ++ ext1) hinv2 hfuel2 with
          ⟨ext2, hr1, hr2, hr3, hr4⟩
        rw [he2, he1]
        exact ⟨ext1 ++ ext2, by rw [hr1]; simp, hr2, hr3, hr4⟩



theorem chain_reach {canVisit : Cell → Bool} {start target : Cell} {prev : Prev}
    (hwf : PrevWf canVisit start prev) (hF : Fcomplete canVisit target prev) :
    ∀ (pi : List Dir) (c : Cell), c ∈ keys prev →
      applyDirs c pi = target →
      (∀ i, i < pi.length → canVisit (applyDirs c (pi.take (i + 1))) = true) →
      target ∈ keys prev ∧
        ∀ n m, Chain prev c n → Chain prev target m → m ≤ n + pi.length := by
  intro pi
  induction pi with
  | nil =>
    intro c hc happ hcan
    simp only [applyDirs, List.foldl_nil] at happ
    subst happ
    exact ⟨hc, fun n m hn hm => by have := chain_unique hn hm; omega⟩
  | cons d ds ih =>
    intro c hc happ hcan
    have hcan0 : canVisit (step c d) = true := by
      have := hcan 0 (by simp)
      simpa [applyDirs] using this
    rcases hF c hc with hcov | hsup
    · obtain ⟨hmem, hbound⟩ := hcov d hcan0
      have happ2 : applyDirs (step c d) ds = target := by
        simpa [applyDirs] using happ
      have hcan2 : ∀ i, i < ds.length →
          canVisit (applyDirs (step c d) (ds.take (i + 1))) = true := by
        intro i hi
        have := hcan (i + 1) (by simp; omega)
        simpa [applyDirs, List.take_cons] using this
      obtain ⟨htm, hb2⟩ := ih (step c d) hmem happ2 hcan2
      refine ⟨htm, ?_⟩
      intro n m hn hm
      rcases chain_exists hwf (step c d) hmem with ⟨n1, hn1⟩
      have h1 := hbound n n1 hn hn1
      have h2 := hb2 n1 m hn1 hm
      simp only [List.length_cons]
      omega
    · obtain ⟨htm, hb⟩ := hsup
      exact ⟨htm, fun n m hn hm => by have := hb n m hn hm; simp; omega⟩

theorem manhattan_le_length :
    ∀ (pi : List Dir) (s t : Cell), applyDirs s pi = t →
      manhattanDistance s.1 s.2 t.1 t.2 ≤ pi.length := by
  intro pi
  induction pi with
  | nil =>
    intro s t happ
    simp only [applyDirs, List.foldl_nil] at happ
    subst happ
    simp [manhattanDistance]
  | cons d ds ih =>
    intro s t happ
    have happ2 : applyDirs (step s d) ds = t := by
      simpa [applyDirs] using happ
    have h1 := ih (step s d) t happ2
    have h2 : manhattanDistance s.1 s.2 t.1 t.2
        ≤ manhattanDistance (step s d).1 (step s d).2 t.1 t.2 + 1 := by
      cases d <;> simp [manhattanDistance, step, dirDelta] <;> omega
    simp only [List.length_cons]
    omega



theorem isAccessible_free {g : Grid} (hfree : ∀ x y, g.accessible x y = true)
    (x y : Int) :
    g.isAccessible x y = true ↔ 0 ≤ x ∧ x < g.width ∧ 0 ≤ y ∧ y < g.height := by
  rw [Grid.isAccessible]
  by_cases hb : x < 0 ∨ y < 0 ∨ x ≥ g.width ∨ y ≥ g.height
  · rw [if_pos hb]
    constructor
    · intro h; exact absurd h (by simp)
    · intro h; omega
  · rw [if_neg hb]
    push_neg at hb
    constructor
    · intro _; omega
    · intro _; exact hfree x y

theorem free_path (g : Grid) (hfree : ∀ x y, g.accessible x y = true) :
    ∀ (k : ℕ) (s t : Cell),
      g.isAccessible s.1 s.2 = true → g.isAccessible t.1 t.2 = true →
      manhattanDistance s.1 s.2 t.1 t.2 = k →
      ∃ pi : List Dir, pi.length = k ∧ applyDirs s pi = t ∧
        ∀ i, i < k →
          g.isAccessible (applyDirs s (pi.take (i + 1))).1
            (applyDirs s (pi.take (i + 1))).2 = true := by
  intro k
  induction k with
  | zero =>
    intro s t hs ht hman
    have hst : s = t := by
      simp only [manhattanDistance] at hman
      have h1 : s.1 = t.1 := by omega
      have h2 : s.2 = t.2 := by omega
      exact Prod.ext h1 h2
    exact ⟨[], rfl, by simp [applyDirs, hst], by intro i hi; omega⟩
  | succ k ih =>
    intro s t hs ht hman
    have ht2 := ht
    rw [isAccessible_free hfree] at hs ht
    have hd : ∃ d : Dir, manhattanDistance (step s d).1 (step s d).2 t.1 t.2 = k ∧
        g.isAccessible (step s d).1 (step s d).2 = true := by
      simp only [manhattanDistance] at hman
      by_cases h1 : s.1 < t.1
      · refine ⟨.right, ?_, ?_⟩
        · simp only [manhattanDistance, step, dirDelta]; omega
        · rw [isAccessible_free hfree]; simp [step, dirDelta]; omega
      · by_cases h2 : s.1 > t.1
        · refine ⟨.left, ?_, ?_⟩
          · simp only [manhattanDistance, step, dirDelta]; omega
          · rw [isAccessible_free hfree]; simp [step, dirDelta]; omega
        · by_cases h3 : s.2 < t.2
          · refine ⟨.up, ?_, ?_⟩
            · simp only [manhattanDistance, step, dirDelta]; omega
            · rw [isAccessible_free hfree]; simp [step, dirDelta]; omega
          · refine ⟨.down, ?_, ?_⟩
            · simp only [manhattanDistance, step, dirDelta]; omega
            · rw [isAccessible_free hfree]; simp [step, dirDelta]; omega
    rcases hd with ⟨d, hman2, hacc2⟩
    rcases ih (step s d) t hacc2 ht2 hman2 with ⟨pi, hlen, happ, hpre⟩
    refine ⟨d :: pi, by simp [hlen], by simpa [applyDirs] using happ, ?_⟩
    intro i hi
    cases i with
    | zero => simpa [applyDirs] using hacc2
    | succ i =>
      have := hpre i (by omega)
      simpa [applyDirs, List.take_cons] using this



theorem loopInv_init (canVisit : Cell → Bool) (start : Cell) (S : Finset Cell)
    (hstartS : start ∈ S) :
    LoopInv canVisit start S [start] [(start, none)] := by
  constructor
  · constructor
    · simp [keys]
    · intro i c pe hget
      cases i with
      | zero =>
        obtain ⟨h1, h2⟩ := Prod.mk.injEq .. |>.mp (Option.some.injEq .. |>.mp hget)
        exact ⟨fun _ => h1.symm, fun p2 d2 hpe => by
          rw [← h2] at hpe
          exact Option.noConfusion hpe⟩
      | succ i => simp at hget
  · simp [lookupPrev]
  · intro c hc
    simp only [keys, List.map_cons, List.map_nil, List.mem_singleton] at hc
    rw [hc]
    exact hstartS
  · intro c hc
    simp only [List.mem_singleton] at hc
    simp [keys, hc]
  · simp
  · simp
  · intro h2 ci nh ni hh hci hch hci2
    simp only [List.head?_cons] at hh
    have hh2 : h2 = start := by simpa using hh.symm
    have hci3 : ci = start := by simpa using hci
    subst hh2
    subst hci3
    have := chain_unique hch hci2
    omega
  · intro c hc hcq cq hcq2
    simp only [keys, List.map_cons, List.map_nil, List.mem_singleton] at hc
    exact absurd (by simp [hc]) hcq
  · intro c hc hcq
    simp only [keys, List.map_cons, List.map_nil, List.mem_singleton] at hc
    exact absurd (by simp [hc]) hcq

/-- Claim C7: on a grid with no obstacles, for every pair of accessible
cells `bfsPath` returns a direction sequence that, applied step by step from
the start cell (up = y+1, down = y-1, left = x-1, right = x+1), ends exactly
on the goal cell, and whose length equals the Manhattan distance between
start and goal. -/
theorem bfsPath_free_round_trip (g : Grid)
    (hfree : ∀ x y, g.accessible x y = true) (sx sy tx ty : Int)
    (hs : g.isAccessible sx sy = true) (ht : g.isAccessible tx ty = true) :
    ∃ p, g.bfsPath sx sy tx ty = some p ∧ applyDirs (sx, sy) p = (tx, ty) ∧
      p.length = manhattanDistance sx sy tx ty := by
  have hsb := (isAccessible_free hfree sx sy).mp hs
  have htb := (isAccessible_free hfree tx ty).mp ht
  have hS : ∀ c : Cell, (fun c : Cell => g.isAccessible c.1 c.2) c = true →
      c ∈ Finset.Ico (0 : ℤ) g.width ×ˢ Finset.Ico (0 : ℤ) g.height := by
    intro c hc
    have := (isAccessible_free hfree c.1 c.2).mp hc
    rw [Finset.mem_product, Finset.mem_Ico, Finset.mem_Ico]
    omega
  have hstartS : ((sx, sy) : Cell)
      ∈ Finset.Ico (0 : ℤ) g.width ×ˢ Finset.Ico (0 : ℤ) g.height := by
    rw [Finset.mem_product, Finset.mem_Ico, Finset.mem_Ico]
    constructor
    · exact ⟨hsb.1, hsb.2.1⟩
    · exact ⟨hsb.2.2.1, hsb.2.2.2⟩
  have hcard : (Finset.Ico (0 : ℤ) g.width ×ˢ Finset.Ico (0 : ℤ) g.height).card
      = (g.width * g.height).toNat := by
    rw [Finset.card_product, Int.card_Ico, Int.card_Ico, sub_zero, sub_zero]
    obtain ⟨x, hx⟩ : ∃ x : ℕ, g.width = ↑x :=
      ⟨g.width.toNat, (Int.toNat_of_nonneg (by omega)).symm⟩
    obtain ⟨y, hy⟩ : ∃ y : ℕ, g.height = ↑y :=
      ⟨g.height.toNat, (Int.toNat_of_nonneg (by omega)).symm⟩
    rw [hx, hy, ← Int.natCast_mul, Int.toNat_natCast, Int.toNat_natCast,
      Int.toNat_natCast]
  have hinv0 := loopInv_init (fun c : Cell => g.isAccessible c.1 c.2) (sx, sy)
    (Finset.Ico (0 : ℤ) g.width ×ˢ Finset.Ico (0 : ℤ) g.height) hstartS
  have hfl : ([((sx, sy) : Cell)]).length
      + ((Finset.Ico (0 : ℤ) g.width ×ˢ Finset.Ico (0 : ℤ) g.height).card + 1
        - (keys [(((sx, sy) : Cell), none)]).length)
      ≤ (g.width * g.height).toNat + 1 := by
    rw [hcard]
    simp [keys]
    omega
  rcases bfsLoop_complete (fun c : Cell => g.isAccessible c.1 c.2) (sx, sy)
      (tx, ty) (Finset.Ico (0 : ℤ) g.width ×ˢ Finset.Ico (0 : ℤ) g.height) hS
      ((g.width * g.height).toNat + 1) [(sx, sy)] [((sx, sy), none)] hinv0 hfl
    with ⟨ext, hext, hwfF, hstartF, hFc⟩
  set prevF := bfsLoop (fun c : Cell => g.isAccessible c.1 c.2) (tx, ty)
    ((g.width * g.height).toNat + 1) [((sx, sy) : Cell)] [(((sx, sy) : Cell), none)]
    with hprevF
  have hsmem : ((sx, sy) : Cell) ∈ keys prevF := by
    rw [hext, keys_append]
    simp [keys]
  rcases free_path g hfree (manhattanDistance sx sy tx ty) (sx, sy) (tx, ty)
    hs ht rfl with ⟨pi, hpilen, hpiapp, hpipre⟩
  obtain ⟨htmem, hbound⟩ := chain_reach hwfF hFc pi (sx, sy) hsmem hpiapp
    (by intro i hi; exact hpipre i (by omega))
  have hchain0 : Chain prevF (sx, sy) 0 := Chain.zero _ hstartF
  rcases chain_exists hwfF (tx, ty) htmem with ⟨m, hm⟩
  have hmk : m ≤ manhattanDistance sx sy tx ty := by
    have := hbound 0 m hchain0 hm
    omega
  have hhas : hasKey prevF (tx, ty) = true := by
    have h2 := (lookupPrev_isSome_iff_mem_keys prevF (tx, ty)).mpr htmem
    simpa [hasKey] using h2
  obtain ⟨hwlen, hwapp, _⟩ := recWalk_of_chain hwfF hm prevF.length
    (le_of_lt (chain_lt_length hwfF hm))
  have hres : g.bfsPath sx sy tx ty
      = some ((recWalk prevF prevF.length (tx, ty)).reverse) := by
    rw [Grid.bfsPath, if_neg (by simp [hs, ht])]
    dsimp only
    rw [← hprevF, if_neg (by simp [hhas])]
  refine ⟨(recWalk prevF prevF.length (tx, ty)).reverse, hres, hwapp, ?_⟩
  have hlow := manhattan_le_length ((recWalk prevF prevF.length (tx, ty)).reverse)
    (sx, sy) (tx, ty) hwapp
  rw [List.length_reverse, hwlen] at hlow ⊢
  exact le_antisymm hmk hlow



/-- Witness for C7 on a concrete 3x3 empty grid from (0,0) to (2,1). -/
theorem bfsPath_free_round_trip_witness :
    ∃ p, Grid.bfsPath ⟨3, 3, fun _ _ => true⟩ 0 0 2 1 = some p
      ∧ applyDirs (0, 0) p = (2, 1)
      ∧ p.length = manhattanDistance 0 0 2 1 :=
  bfsPath_free_round_trip ⟨3, 3, fun _ _ => true⟩ (fun _ _ => rfl) 0 0 2 1
    (by decide) (by decide)

end ParcelPredator
